import Mathlib

/-!
Verification of the orchestration core of a two-agent chat system.

The development shallowly embeds the text-processing and scheduling logic of
the Python sources (`gui_ollama_chat.py`, `multi_ollama_chat.py`,
`tools/live_merge_and_inject.py`, `tools/real_merge_run.py`,
`The Brain v3/brain.py`) as executable Lean functions and proves, or refutes
by concrete evaluation, the testable properties stated for them.

Modelling conventions used throughout:
- Python strings are `String` or `List Char`; machine floats used only as
  ratios of small naturals or as sleep durations are modelled as `ℚ` (for the
  ratios occurring here, float comparison against 0.5 and equality with 1.0
  agree with the exact rational values).
- Python whitespace (`str.strip`, regex `\s`) is modelled by the six ASCII
  whitespace characters; regex `\w` by ASCII alphanumerics plus underscore;
  `str.lower` by `Char.toLower`.  The sources are exercised on ASCII-range
  protocol text, where these agree with Python.
- File and network effects are explicit: persisted state is threaded through
  functions, network replies are oracles (`ℕ → String`), and fallible
  operations return `Option`/`Except`.
-/

namespace TheBrain

/-! ## Character classes (Python regex classes and `str` helpers) -/

/-- Python ASCII whitespace, as used by `str.strip()` and the regex class `\s`. -/
def isPySpace (c : Char) : Bool :=
  c = ' ' || c = '\t' || c = '\n' || c = '\x0d' || c = '\x0b' || c = '\x0c'

/-- Sentence terminators `.`, `!`, `?` (the regex class `[.!?]`). -/
def isTermChar (c : Char) : Bool :=
  c = '.' || c = '!' || c = '?'

/-- The negated class `[^.!?\n]` of `dedupe_sentences` splits on these. -/
def isTerm4 (c : Char) : Bool :=
  c = '.' || c = '!' || c = '?' || c = '\n'

/-- Word characters: ASCII model of the regex class `\w`. -/
def isWordChar (c : Char) : Bool :=
  c.isAlphanum || c = '_'

/-- The splitter class `[,;:\\-]` of `trunc` (comma, semicolon, colon,
backslash, dash). -/
def isSplitChar (c : Char) : Bool :=
  c = ',' || c = ';' || c = ':' || c = '\\' || c = '-'

/-! ## List-of-characters text primitives -/

/-- Python `str.lstrip()` on a character list. -/
def lstrip (l : List Char) : List Char :=
  l.dropWhile isPySpace

/-- Python `str.rstrip()` on a character list. -/
def rstrip (l : List Char) : List Char :=
  (l.reverse.dropWhile isPySpace).reverse

/-- Python `str.strip()` on a character list. -/
def pstrip (l : List Char) : List Char :=
  rstrip (lstrip l)

/-- Python `str.rstrip(chars)` for an explicit character set. -/
def rstripSet (cs : List Char) (l : List Char) : List Char :=
  (l.reverse.dropWhile (fun c => cs.contains c)).reverse

/-- Python `str.strip()` on a `String`. -/
def pyStrip (s : String) : String :=
  ⟨pstrip s.data⟩

/-- Python `" ".join` on chunk lists. -/
def joinSp : List (List Char) → List Char
  | [] => []
  | [x] => x
  | x :: rest => x ++ ' ' :: joinSp rest

/-- Python truthiness-based `or` on strings: `a or b`. -/
def pyOr (a b : String) : String :=
  if a = "" then b else a

/-! ## Word tokenisation (`re.findall(r"\w+", ...)`) -/

/-- Accumulator pass splitting a character list into maximal runs of word
characters, as `re.findall(r"\w+", s)` does.  `acc` holds the current run,
reversed. -/
def wordsAcc : List Char → List Char → List (List Char)
  | [], acc => if acc = [] then [] else [acc.reverse]
  | c :: rest, acc =>
    if isWordChar c then wordsAcc rest (c :: acc)
    else if acc = [] then wordsAcc rest [] else acc.reverse :: wordsAcc rest []

/-- The word tokens of a character list (`re.findall(r"\w+", s)`). -/
def pyWords (l : List Char) : List (List Char) :=
  wordsAcc l []

/-- Python `str.lower()`, modelled characterwise. -/
def pyLower (l : List Char) : List Char :=
  l.map Char.toLower

/-! ## TopicGuard scoring: `topic_similarity` of `multi_ollama_chat.py`

Source (lines 259-272):
```
def topic_similarity(text: str, topic: str) -> float:
    if not text or not topic:
        return 0.0
    toks = re.findall(r"\w+", text.lower())
    tset = set(re.findall(r"\w+", topic.lower()))
    if not tset:
        return 0.0
    common = sum(1 for t in toks if t in tset)
    return common / max(1, len(toks))
```
The surrounding `try`/`except` never fires for string inputs.  Python `set`
membership is modelled by list membership, which has the same semantics. -/

/-- Lexical-overlap score of `text` against `topic`, an exact rational model
of `topic_similarity` (the float result is the rounding of this rational; the
bounds and the exact values 0 and 1 are preserved by rounding). -/
def topic_similarity (text topic : String) : ℚ :=
  if text = "" || topic = "" then 0
  else if pyWords (pyLower topic.data) = [] then 0
  else (((pyWords (pyLower text.data)).filter
          (fun w => (pyWords (pyLower topic.data)).contains w)).length : ℚ) /
        (max 1 (pyWords (pyLower text.data)).length : ℕ)

/-! ## Rolling brain history: `add_to_brain` of `The Brain v3/brain.py`

Source (lines 17-27): load the persisted history, append one entry dict of
timestamp/agent/role/message, keep only the final 200 entries
(`brain['history'][-200:]`), save.  The persisted store is threaded through
explicitly as the history list; `datetime.now().isoformat()` is an input. -/

/-- One entry of the rolling brain history. -/
structure BrainEntry where
  timestamp : String
  agent : String
  role : String
  message : String
deriving Repr, DecidableEq

/-- Model of `add_to_brain`: append the new entry and keep the last 200
entries (`[-200:]`). -/
def add_to_brain (history : List BrainEntry) (now agent message role : String) :
    List BrainEntry :=
  (history ++ [BrainEntry.mk now agent role message]).drop
    ((history ++ [BrainEntry.mk now agent role message]).length - 200)

/-! ## MergePipeline final synthesis fallbacks (C5)

`tools/live_merge_and_inject.py`, lines 82-89:
```
final = call_with_timeout(a_url, a_model, [...], timeout=30).get('content','').strip()
if not final:
    final = draft_a or draft_b or '[ERROR: no merged output]'
```
`call_with_timeout` never raises: transport failures already arrive as
non-empty inline `[ERROR ...]` content, so only the content string matters
here.

`tools/real_merge_run.py`, lines 106-116:
```
try:
    final = chat_with_ollama(a_url, a_model, messages_synth, timeout=timeout).get('content','').strip()
except Exception as e:
    final = draft_a or draft_b or f'[ERROR synth: \x7be\x7d]'
```
The synthesis call here may raise, modelled by `Except` (error carries the
exception text). -/

/-- Final value of the live-merge pipeline given the synthesis reply content
and the two drafts. -/
def finalLive (synthContent draftA draftB : String) : String :=
  if pyStrip synthContent = "" then pyOr draftA (pyOr draftB "[ERROR: no merged output]")
  else pyStrip synthContent

/-- Final value of the `real_merge_run` pipeline given the synthesis outcome
and the two drafts. -/
def finalReal (synth : Except String String) (draftA draftB : String) : String :=
  match synth with
  | .ok c => pyStrip c
  | .error e => pyOr draftA (pyOr draftB ("[ERROR synth: " ++ e ++ "]"))

/-! ## First-sentence search: `re.search(r"(.+?[.!?])(\s|$)", t, re.S)`

With `re.S` the dot matches every character, so a match starting at position
0 exists as soon as some index `j ≥ 1` holds a terminator followed by
whitespace or the end; `re.search` returns the leftmost match and the lazy
`.+?` picks the least such `j`, making group 1 the prefix `t[0..j]`.  (If only
`j = 0` qualifies there is no match at any start position, because `.+?`
consumes at least one character before the terminator.) -/

/-- Whether the character after a candidate terminator satisfies `(\s|$)`. -/
def nextOkFS : List Char → Bool
  | [] => true
  | d :: _ => isPySpace d

/-- Index (from the start of the scanned suffix) of the least position
`j ≥ 1` holding a sentence terminator followed by whitespace or end. -/
def fsSearch : ℕ → List Char → Option ℕ
  | _, [] => none
  | i, c :: rest =>
    if 1 ≤ i && isTermChar c && nextOkFS rest then some i
    else fsSearch (i + 1) rest

/-- Group 1 of the first-sentence regex, when it matches. -/
def firstSentence (l : List Char) : Option (List Char) :=
  (fsSearch 0 l).map (fun j => l.take (j + 1))

/-! ## Short-turn truncation: `trunc` of `gui_ollama_chat.py` (lines 2997-3044)

`maxc` is `cfg.get("max_chars_a")`/`("max_chars_b")`: `None` or an `int`
(modelled `Option ℤ`).  The Python guard `maxc and maxc > 0 and len(s) > maxc`
is `truncCut maxc s.length` below (an `int` 0 is falsy, so the guard is
exactly `0 < maxc < len(s)` when `maxc` is an int and false when `None`). -/

/-- The guard `maxc and maxc > 0 and len(s) > maxc`. -/
def truncCut (maxc : Option ℤ) (n : ℕ) : Bool :=
  match maxc with
  | none => false
  | some m => 0 < m && m < (n : ℤ)

/-- Prefix of `t` before the first character of the splitter class, i.e.
`re.split(r"[,;:\\-]\s*", t, maxsplit=1)[0]` (the `\s*` only trims the
second part, which `trunc` discards). -/
def part0 (t : List Char) : List Char :=
  t.takeWhile (fun c => !isSplitChar c)

/-- Python `s.endswith((".", "!", "?"))`. -/
def endsWithTerm (l : List Char) : Bool :=
  match l.getLast? with
  | some c => isTermChar c
  | none => false

/-- Python `s.rfind(ch)`: last index of `ch`, or -1. -/
def pyRfind (ch : Char) (l : List Char) : ℤ :=
  match l.reverse.findIdx? (fun c => c = ch) with
  | some r => (l.length : ℤ) - 1 - r
  | none => -1

/-- Short-turn branch of `trunc` on the stripped text `t`.  When a first
sentence exists it is returned whole (the source's max-chars comparisons in
that branch all `return s` unchanged); otherwise the pre-splitter fragment is
returned, with trailing `" ,;:"` stripped and an ellipsis appended when it was
not already terminator-ended and not over the positive char budget. -/
def truncShort (maxc : Option ℤ) (t : List Char) : List Char :=
  match firstSentence t with
  | some g => pstrip g
  | none =>
    if truncCut maxc (pstrip (part0 t)).length then pstrip (part0 t)
    else if endsWithTerm (pstrip (part0 t)) then pstrip (part0 t)
    else rstripSet [' ', ',', ';', ':'] (pstrip (part0 t)) ++ ['…']

/-- Non-short branch of `trunc` once the guard `maxc and maxc > 0 and
len(t) > maxc` held: cut at `maxc`, prefer the last sentence terminator
inside the window at a positive index, else the first full sentence of the
whole text, else hard-truncate with an ellipsis. -/
def truncLongCut (m : ℤ) (t : List Char) : List Char :=
  if max (max (pyRfind '.' (t.take m.toNat)) (pyRfind '!' (t.take m.toNat)))
       (pyRfind '?' (t.take m.toNat)) > 0 then
    pstrip ((t.take m.toNat).take
      ((max (max (pyRfind '.' (t.take m.toNat)) (pyRfind '!' (t.take m.toNat)))
          (pyRfind '?' (t.take m.toNat))).toNat + 1))
  else
    match firstSentence t with
    | some g => pstrip g
    | none =>
      if endsWithTerm (pstrip (t.take m.toNat)) then pstrip (t.take m.toNat)
      else rstripSet [' ', ',', ';', ':'] (pstrip (t.take m.toNat)) ++ ['…']

/-- The whole of `trunc` on the stripped text. -/
def truncL (shortTurn : Bool) (maxc : Option ℤ) (t : List Char) : List Char :=
  if shortTurn then truncShort maxc t
  else if truncCut maxc t.length then
    match maxc with
    | some m => truncLongCut m t
    | none => t
  else t

/-- The sanitizer `trunc`: empty in, empty out; otherwise operate on the
stripped text. -/
def trunc (shortTurn : Bool) (maxc : Option ℤ) (text : String) : String :=
  if text = "" then "" else ⟨truncL shortTurn maxc (pstrip text.data)⟩


/-! ## CLI truncation: `truncate_text` of `multi_ollama_chat.py` (lines 241-253)

```
def truncate_text(text: str) -> str:
    if not text:
        return ""
    if short_turn:
        m = re.search(r"(.+?[.!?])(\s|$)", text.strip(), re.S)
        if m:
            return m.group(1).strip()
    if max_chars and isinstance(max_chars, int) and max_chars > 0:
        return text.strip()[:max_chars]
    return text.strip()
```
-/

/-- Fall-through of `truncate_text` once no first sentence was returned. -/
def truncTail (maxChars : Option ℤ) (text : String) : String :=
  match maxChars with
  | some m => if 0 < m then ⟨(pstrip text.data).take m.toNat⟩ else ⟨pstrip text.data⟩
  | none => ⟨pstrip text.data⟩

/-- The CLI sanitizer `truncate_text`, closed over the run options
`short_turn` and `max_chars`. -/
def truncate_text (shortTurn : Bool) (maxChars : Option ℤ) (text : String) : String :=
  if text = "" then ""
  else if shortTurn then
    match firstSentence (pstrip text.data) with
    | some g => ⟨pstrip g⟩
    | none => truncTail maxChars text
  else truncTail maxChars text

/-! ## TopicGuard enforcement loop of `run_conversation` (lines 289-307, 318-336)

Per agent and per turn the CLI runs (with the stop flag unset):
```
for _ in range(2):
    sim = topic_similarity(content, topic)
    if sim < 0.5:
        messages.append(\x7b"role": "user", "content": 'IMPORTANT: Stay strictly on topic: "<topic>". ...'\x7d)
        response2 = chat_with_ollama(...)
        content2 = truncate_text(response2.get("content", ""))
        if topic_similarity(content2, topic) > sim:
            content = content2
        if messages and messages[-1]["role"] == "user" and "IMPORTANT: Stay strictly on topic" in messages[-1]["content"]:
            messages.pop()
    else:
        break
```
The replies of the (up to two) corrective retry calls are the oracle inputs
`r1`, `r2`; the retry count is returned alongside the final content and the
final history. -/

/-- One chat message. -/
structure Msg where
  role : String
  content : String
deriving Repr, DecidableEq

/-- Literal needle of the pop guard. -/
def onTopicMarker : String := "IMPORTANT: Stay strictly on topic"

/-- The synthetic corrective user message. -/
def corrective (topic : String) : Msg :=
  ⟨"user", "IMPORTANT: Stay strictly on topic: \"" ++ topic ++
    "\". Give a short, focused answer only about this topic."⟩

/-- Boolean prefix test on character lists. -/
def startsWithL : List Char → List Char → Bool
  | [], _ => true
  | _ :: _, [] => false
  | n :: ns, h :: hs => n = h && startsWithL ns hs

/-- Python `needle in hay` on character lists. -/
def hasSub (needle : List Char) : List Char → Bool
  | [] => needle.isEmpty
  | c :: hs => startsWithL needle (c :: hs) || hasSub needle hs

/-- Guard of the conditional `messages.pop()`: history non-empty, last role
`"user"`, marker contained in the last content. -/
def popGuard (msgs : List Msg) : Bool :=
  match msgs.getLast? with
  | some m => m.role = "user" && hasSub onTopicMarker.data m.content.data
  | none => false

/-- Conditional `messages.pop()` guarded exactly as in the source. -/
def popIfCorrective (msgs : List Msg) : List Msg :=
  if popGuard msgs then msgs.dropLast else msgs

/-- Retry-keep rule: the corrective reply replaces the content only when its
score strictly improves. -/
def keepIfImproved (shortTurn : Bool) (maxChars : Option ℤ) (topic retryRaw content : String) :
    String :=
  if topic_similarity (truncate_text shortTurn maxChars retryRaw) topic >
      topic_similarity content topic then
    truncate_text shortTurn maxChars retryRaw
  else content

/-- Second pass of the `range(2)` enforcement loop, after a first retry. -/
def enforceAfter1 (shortTurn : Bool) (maxChars : Option ℤ) (topic r2 c1 : String)
    (msgs1 : List Msg) : String × List Msg × ℕ :=
  if topic_similarity c1 topic < 1/2 then
    (keepIfImproved shortTurn maxChars topic r2 c1,
     popIfCorrective (msgs1 ++ [corrective topic]), 2)
  else (c1, msgs1, 1)

/-- The whole enforcement loop for one agent in one turn: initial content
`c0`, retry-reply oracles `r1`, `r2`; returns the accepted content, the final
history, and how many corrective retry calls were issued. -/
def enforce (shortTurn : Bool) (maxChars : Option ℤ) (topic c0 r1 r2 : String)
    (msgs : List Msg) : String × List Msg × ℕ :=
  if topic_similarity c0 topic < 1/2 then
    enforceAfter1 shortTurn maxChars topic r2
      (keepIfImproved shortTurn maxChars topic r1 c0)
      (popIfCorrective (msgs ++ [corrective topic]))
  else (c0, msgs, 0)

/-! ## Sentence deduplication: `dedupe_sentences` of `gui_ollama_chat.py`
(lines 3047-3065)

```
def dedupe_sentences(text: str) -> str:
    if not text:
        return ""
    parts = re.findall(r"[^.!?\n]+[\.!?…]?", text, flags=re.S)
    if not parts:
        return text.strip()
    out = []
    prev = None
    for p in parts:
        s = p.strip()
        if not s:
            continue
        if prev is not None and s == prev:
            continue
        out.append(s)
        prev = s
    return " ".join(out).strip()
```
`re.findall` of that pattern walks the string: characters of the class
`[.!?\n]` outside a chunk are skipped; a chunk is a maximal run of other
characters, extended by one following `.`, `!` or `?` (the `…` alternative of
the optional terminator is unreachable, since `…` is already consumed by the
greedy body).  `chunksAcc` below is that walk, with `cur` the reversed body
of the chunk being built. -/

/-- The chunk walk of `re.findall(r"[^.!?\n]+[\.!?…]?", text)`. -/
def chunksAcc : List Char → List Char → List (List Char)
  | [], cur => if cur = [] then [] else [cur.reverse]
  | c :: rest, cur =>
    if isTerm4 c then
      if cur = [] then chunksAcc rest []
      else if isTermChar c then (cur.reverse ++ [c]) :: chunksAcc rest []
      else cur.reverse :: chunksAcc rest []
    else chunksAcc rest (c :: cur)

/-- Sentence-like chunks of a character list. -/
def chunks (l : List Char) : List (List Char) :=
  chunksAcc l []

/-- The retained chunks: stripped, empties skipped, chunks equal to the
previously retained chunk skipped. -/
def dedupeAcc : List (List Char) → Option (List Char) → List (List Char)
  | [], _ => []
  | p :: rest, prev =>
    if pstrip p = [] then dedupeAcc rest prev
    else if prev = some (pstrip p) then dedupeAcc rest prev
    else pstrip p :: dedupeAcc rest (some (pstrip p))

/-- The sentence deduplicator. -/
def dedupe_sentences (text : String) : String :=
  if text = "" then ""
  else if chunks text.data = [] then ⟨pstrip text.data⟩
  else ⟨pstrip (joinSp (dedupeAcc (chunks text.data) none))⟩

/-! ## Inter-turn delay models (C6)

GUI scheduler, `gui_ollama_chat.py` lines 3166-3169:
```
if stop_event.is_set():
    break
time.sleep(delay)
```
CLI scheduler, `multi_ollama_chat.py` lines 342-347:
```
slept = 0.0
while slept < delay:
    if stop_event.is_set():
        break
    time.sleep(min(0.05, delay - slept))
    slept += 0.05
```
Each model returns the durations (in seconds, as exact rationals standing in
for the floats) of the `time.sleep` calls the delay phase executes;
`stop k` is the value of `stop_event.is_set()` at its `k`-th evaluation. -/

/-- Sleep calls of the GUI inter-turn delay, after its single flag check. -/
def guiInterTurnSleep (stopSet : Bool) (delay : ℚ) : List ℚ :=
  if stopSet then [] else [delay]

/-- Sleep calls of the CLI inter-turn delay loop (fuel-based recursion; the
fuel chosen in `cliSleepChunks` exceeds the iteration count of the source
loop, so the walk always runs to its natural exit). -/
def cliSleepAux (stop : ℕ → Bool) (delay : ℚ) : ℕ → ℚ → ℕ → List ℚ
  | 0, _, _ => []
  | fuel + 1, slept, k =>
    if slept < delay then
      if stop k then []
      else min (1/20) (delay - slept) :: cliSleepAux stop delay fuel (slept + 1/20) (k + 1)
    else []

/-- Sleep calls of the CLI inter-turn delay. -/
def cliSleepChunks (stop : ℕ → Bool) (delay : ℚ) : List ℚ :=
  cliSleepAux stop delay (⌈delay * 20⌉₊ + 1) 0 0

/-! ## The GUI TurnScheduler: `_run_conversation` of `gui_ollama_chat.py`
(lines 2892-3196)

The worker thread seeds both histories, opens the log, then runs up to
`turns` rounds of: flag check → `status` event → drain injected messages
into both histories (`userInjected` events) → call agent B (reply given by
the oracle `respB`) → sanitize (trunc + dedupe) → `b` event, log write,
append to both histories, optional `endpoint` event → flag check → the same
for agent A → flag check → inter-turn sleep.  A `try`/`except`/`finally`
wrapper converts an unexpected exception into a `status` error event and, on
every exit path, closes an open log and emits one `done` event.

Externals are oracles: `respB`/`respA` give each round's raw reply content,
`epB`/`epA` the endpoints the reply reports, `inject i` the messages drained
at round `i`, and `stop k` the value of the `k`-th `stop_event.is_set()`
check.  The timestamp prefixes of log lines are wall-clock and omitted. -/

/-- Events and log-resource actions emitted by the worker, in order. -/
inductive GAction where
  | status (s : String)
  | evB (s : String)
  | evA (s : String)
  | evUser (s : String)
  | evEndpoint (s : String)
  | openLog
  | writeLog (s : String)
  | closeLog
  | done
deriving Repr, DecidableEq

/-- Configuration of one run (strings such as the assembled system prompts
are opaque inputs).  `logOpened` is true when logging is configured and the
`open` succeeded. -/
structure GuiCfg where
  shortTurn : Bool
  maxcA : Option ℤ
  maxcB : Option ℤ
  turns : ℕ
  sysA : String
  sysB : String
  initialPrompt : String
  topic : String
  logOpened : Bool

/-- Oracles for the run's external interactions. -/
structure GuiOracle where
  respB : ℕ → String
  respA : ℕ → String
  epB : ℕ → Option String
  epA : ℕ → Option String
  inject : ℕ → List String
  stop : ℕ → Bool

/-- Reply post-processing applied by the scheduler to raw content:
`dedupe_sentences(trunc(...))`. -/
def sanitizeContent (shortTurn : Bool) (maxc : Option ℤ) (raw : String) : String :=
  dedupe_sentences (trunc shortTurn maxc raw)

/-- Drain of the injection queue: each string whose strip is non-empty is
appended (stripped) as a `user` message to both histories and produces a
`userInjected` event. -/
def drain (inj : List String) (msgsA msgsB : List Msg) :
    List GAction × List Msg × List Msg :=
  match inj with
  | [] => ([], msgsA, msgsB)
  | um :: rest =>
    if pyStrip um = "" then drain rest msgsA msgsB
    else
      (GAction.evUser (pyStrip um) ::
        (drain rest (msgsA ++ [Msg.mk "user" (pyStrip um)])
          (msgsB ++ [Msg.mk "user" (pyStrip um)])).1,
       (drain rest (msgsA ++ [Msg.mk "user" (pyStrip um)])
          (msgsB ++ [Msg.mk "user" (pyStrip um)])).2)

/-- Events of the agent-B half of a round: `b` reply event, log write when a
log is open, `endpoint` event when the reply reports one. -/
def bActs (cfg : GuiCfg) (orc : GuiOracle) (i : ℕ) (cb : String) : List GAction :=
  GAction.evB cb ::
    ((if cfg.logOpened then [GAction.writeLog ("B: " ++ cb)] else []) ++
     (match orc.epB i with
      | some ep => [GAction.evEndpoint ("B: " ++ ep)]
      | none => []))

/-- Events of the agent-A half of a round. -/
def aActs (cfg : GuiCfg) (orc : GuiOracle) (i : ℕ) (ca : String) : List GAction :=
  GAction.evA ca ::
    ((if cfg.logOpened then [GAction.writeLog ("A: " ++ ca)] else []) ++
     (match orc.epA i with
      | some ep => [GAction.evEndpoint ("A: " ++ ep)]
      | none => []))

/-- The round loop: remaining rounds, round index `i`, flag-check counter
`k`, both histories.  Returns the actions emitted from this point on and the
final histories. -/
def loopRun (cfg : GuiCfg) (orc : GuiOracle) :
    ℕ → ℕ → ℕ → List Msg → List Msg → List GAction × List Msg × List Msg
  | 0, _, _, mA, mB => ([], mA, mB)
  | n + 1, i, k, mA, mB =>
    if orc.stop k then ([], mA, mB)
    else
      (GAction.status ("Turn " ++ toString (i + 1) ++ "/" ++ toString cfg.turns) ::
        ((drain (orc.inject i) mA mB).1 ++
          bActs cfg orc i (sanitizeContent cfg.shortTurn cfg.maxcB (orc.respB i)) ++
          (if orc.stop (k + 1) then []
           else aActs cfg orc i (sanitizeContent cfg.shortTurn cfg.maxcA (orc.respA i)) ++
             (if orc.stop (k + 2) then []
              else (loopRun cfg orc n (i + 1) (k + 3)
                 ((drain (orc.inject i) mA mB).2.1 ++
                    [Msg.mk "user" (sanitizeContent cfg.shortTurn cfg.maxcB (orc.respB i)),
                     Msg.mk "assistant" (sanitizeContent cfg.shortTurn cfg.maxcA (orc.respA i))])
                 ((drain (orc.inject i) mA mB).2.2 ++
                    [Msg.mk "assistant" (sanitizeContent cfg.shortTurn cfg.maxcB (orc.respB i)),
                     Msg.mk "user" (sanitizeContent cfg.shortTurn cfg.maxcA (orc.respA i))])).1))),
       if orc.stop (k + 1) then
         ((drain (orc.inject i) mA mB).2.1 ++
            [Msg.mk "user" (sanitizeContent cfg.shortTurn cfg.maxcB (orc.respB i))],
          (drain (orc.inject i) mA mB).2.2 ++
            [Msg.mk "assistant" (sanitizeContent cfg.shortTurn cfg.maxcB (orc.respB i))])
       else if orc.stop (k + 2) then
         ((drain (orc.inject i) mA mB).2.1 ++
            [Msg.mk "user" (sanitizeContent cfg.shortTurn cfg.maxcB (orc.respB i)),
             Msg.mk "assistant" (sanitizeContent cfg.shortTurn cfg.maxcA (orc.respA i))],
          (drain (orc.inject i) mA mB).2.2 ++
            [Msg.mk "assistant" (sanitizeContent cfg.shortTurn cfg.maxcB (orc.respB i)),
             Msg.mk "user" (sanitizeContent cfg.shortTurn cfg.maxcA (orc.respA i))])
       else
         (loopRun cfg orc n (i + 1) (k + 3)
            ((drain (orc.inject i) mA mB).2.1 ++
               [Msg.mk "user" (sanitizeContent cfg.shortTurn cfg.maxcB (orc.respB i)),
                Msg.mk "assistant" (sanitizeContent cfg.shortTurn cfg.maxcA (orc.respA i))])
            ((drain (orc.inject i) mA mB).2.2 ++
               [Msg.mk "assistant" (sanitizeContent cfg.shortTurn cfg.maxcB (orc.respB i)),
                Msg.mk "user" (sanitizeContent cfg.shortTurn cfg.maxcA (orc.respA i))])).2)

/-- Actions emitted before the loop: the topic `status` event, the
`(initial)` seed echoed on the B channel, and the log acquisition. -/
def initActs (cfg : GuiCfg) : List GAction :=
  [GAction.status ("Using topic: " ++ cfg.topic),
   GAction.evB ("(initial) " ++ cfg.initialPrompt)] ++
  (if cfg.logOpened then [GAction.openLog] else [])

/-- The seeded histories: system prompt, then the initial prompt as a `user`
turn in both. -/
def initMsgs (sys initialPrompt : String) : List Msg :=
  [Msg.mk "system" sys, Msg.mk "user" initialPrompt]

/-- The whole `try` body: actions emitted and final histories. -/
def runWorkerBody (cfg : GuiCfg) (orc : GuiOracle) :
    List GAction × List Msg × List Msg :=
  (initActs cfg ++
     (loopRun cfg orc cfg.turns 0 0 (initMsgs cfg.sysA cfg.initialPrompt)
        (initMsgs cfg.sysB cfg.initialPrompt)).1,
   (loopRun cfg orc cfg.turns 0 0 (initMsgs cfg.sysA cfg.initialPrompt)
      (initMsgs cfg.sysB cfg.initialPrompt)).2)

/-- Body actions kept when an unexpected exception interrupts the `try`
block after `k` of them (`fail = some (k, msg)`): the except clause appends
one `status` error event. -/
def keptActs (cfg : GuiCfg) (orc : GuiOracle) (fail : Option (ℕ × String)) :
    List GAction :=
  match fail with
  | none => (runWorkerBody cfg orc).1
  | some (k, emsg) =>
    (runWorkerBody cfg orc).1.take k ++
      [GAction.status ("Error: " ++ emsg ++ " (see thread_error.log)")]

/-- The complete worker trace: the (possibly interrupted) body, then the
`finally` clause — close the log if it was opened on this path, then emit
`done`. -/
def runWorker (cfg : GuiCfg) (orc : GuiOracle) (fail : Option (ℕ × String)) :
    List GAction :=
  keptActs cfg orc fail ++
    (if GAction.openLog ∈ keptActs cfg orc fail then [GAction.closeLog] else []) ++
    [GAction.done]

/-- Recogniser for the `done` event. -/
def isDoneAct : GAction → Bool
  | .done => true
  | _ => false

/-- Recogniser for the log-close action. -/
def isCloseAct : GAction → Bool
  | .closeLog => true
  | _ => false

/-- Recogniser for the log-open action. -/
def isOpenAct : GAction → Bool
  | .openLog => true
  | _ => false

/-! ## AgentClient response handling: `chat_with_ollama` of
`multi_ollama_chat.py` (lines 39-123)

The reply payload is modelled by `PyVal` (a JSON-ish value: string or dict).
The response-shape dispatch of lines 114-123 probes `message` (dict or not)
and `content`, falling back to `str(response)`; every extracted value runs
through `extract_from_text` and `clean_content`.  A non-string value fed
into the regex helpers would raise `TypeError` in Python, modelled by
`none`.  The optional `autocorrect` spell-checking block is guarded by a
`try: import ...` and is modelled in its absent-package state (the block is
skipped).  Python `str.replace` of the six typographic characters and
`str.splitlines` are modelled on their ASCII-range behaviour. -/

/-- A payload value: a string leaf or a string-keyed dict. -/
inductive PyVal where
  | pstr (s : String)
  | pdict (entries : List (String × PyVal))
deriving Repr

/-- Python `dict.get` / key lookup (keys assumed unique, as in a dict). -/
def pyLookup (k : String) : List (String × PyVal) → Option PyVal
  | [] => none
  | (k2, v) :: rest => if k2 = k then some v else pyLookup k rest

/-- Python truthiness of an optional value (`None`, `""` and `\x7b\x7d` are
falsy). -/
def pyTruthy : Option PyVal → Bool
  | none => false
  | some (.pstr s) => !(s == "")
  | some (.pdict l) => !l.isEmpty

/-- Python `repr` of a string without characters needing escapes. -/
def pyQuote (s : String) : String := "\x27" ++ s ++ "\x27"

mutual
/-- Python `repr` of a payload value. -/
def pyRepr : PyVal → String
  | .pstr s => pyQuote s
  | .pdict es => "\x7b" ++ pyReprEntries es ++ "\x7d"

/-- Comma-joined `repr` entries of a dict. -/
def pyReprEntries : List (String × PyVal) → String
  | [] => ""
  | [(k, v)] => pyQuote k ++ ": " ++ pyRepr v
  | (k, v) :: rest => pyQuote k ++ ": " ++ pyRepr v ++ ", " ++ pyReprEntries rest
end

/-- Python `str()` of a payload value. -/
def pyStr : PyVal → String
  | .pstr s => s
  | v => pyRepr v

/-- The quote alternation `(?:\x27|\")`. -/
def isQuote (c : Char) : Bool :=
  c = '\x27' || c = '"'

/-- Lazy scan for a closing quote followed by `,` or `)` (the tail of the
`Message(...)` content regex); returns the group before it. -/
def findCloseA : List Char → List Char → Option (List Char)
  | _, [] => none
  | acc, c :: rest =>
    if isQuote c && (match rest with
        | d :: _ => d = ',' || d = ')'
        | [] => false) then some acc.reverse
    else findCloseA (c :: acc) rest

/-- Lazy scan for a closing quote (the tail of the plain `content=` regex). -/
def findCloseB : List Char → List Char → Option (List Char)
  | _, [] => none
  | acc, c :: rest =>
    if isQuote c then some acc.reverse
    else findCloseB (c :: acc) rest

/-- Match `content=(?:\x27|\")(.*?)(?:\x27|\")(?:,|\))` at the start of `l`. -/
def contentEqA (l : List Char) : Option (List Char) :=
  if startsWithL "content=".data l then
    match l.drop 8 with
    | qc :: body => if isQuote qc then findCloseA [] body else none
    | [] => none
  else none

/-- Match `content=(?:\x27|\")(.*?)(?:\x27|\")` at the start of `l`. -/
def contentEqB (l : List Char) : Option (List Char) :=
  if startsWithL "content=".data l then
    match l.drop 8 with
    | qc :: body => if isQuote qc then findCloseB [] body else none
    | [] => none
  else none

/-- Backtracking of the greedy `[^)]*` of the `Message(` regex: try the
largest gap first, shrinking until the `content=` tail matches. -/
def tryGapA : ℕ → List Char → Option (List Char)
  | 0, after => contentEqA after
  | gap + 1, after =>
    match contentEqA (after.drop (gap + 1)) with
    | some g => some g
    | none => tryGapA gap after

/-- Leftmost match of `Message\([^)]*content=(?:\x27|\")(.*?)(?:\x27|\")(?:,|\))`. -/
def searchA : List Char → Option (List Char)
  | [] => none
  | c :: rest =>
    if startsWithL "Message(".data (c :: rest) then
      match tryGapA (((c :: rest).drop 8).takeWhile (fun d => !(d = ')'))).length
          ((c :: rest).drop 8) with
      | some g => some g
      | none => searchA rest
    else searchA rest

/-- Leftmost match of `content=(?:\x27|\")(?P<c>.*?)(?:\x27|\")`. -/
def searchB : List Char → Option (List Char)
  | [] => none
  | c :: rest =>
    match contentEqB (c :: rest) with
    | some g => some g
    | none => searchB rest

/-- `extract_from_text`: pull a quoted `content=` payload out of a
stringified response object, or return the text unchanged. -/
def extract_from_text (text : String) : String :=
  if text = "" then ""
  else
    match searchA text.data with
    | some g => ⟨g⟩
    | none =>
      match searchB text.data with
      | some g => ⟨g⟩
      | none => text

/-- Generic left-to-right non-overlapping `re.sub` engine: the matcher sees
the previous original character (for `\b` and `(?m)^`) and the current
suffix, and returns the consumed length (≥ 1) and the replacement. -/
def subAllAux (m : Option Char → List Char → Option (ℕ × List Char)) :
    ℕ → Option Char → List Char → List Char
  | 0, _, l => l
  | _ + 1, _, [] => []
  | fuel + 1, prev, c :: rest =>
    match m prev (c :: rest) with
    | some (n, rep) =>
      if n = 0 then c :: subAllAux m fuel (some c) rest
      else rep ++ subAllAux m fuel ((c :: rest).take n).getLast? ((c :: rest).drop n)
    | none => c :: subAllAux m fuel (some c) rest

/-- Apply a substitution over the whole text. -/
def subAll (m : Option Char → List Char → Option (ℕ × List Char))
    (l : List Char) : List Char :=
  subAllAux m l.length none l

/-- Word boundary `\b` before a word character. -/
def atBoundary : Option Char → Bool
  | none => true
  | some p => !isWordChar p

/-- Matcher for `\b<key>=[^\s,]+` (deleted). -/
def matchKeyEq (key : List Char) (prev : Option Char) (l : List Char) :
    Option (ℕ × List Char) :=
  if atBoundary prev && startsWithL (key ++ ['=']) l then
    match (l.drop (key.length + 1)).takeWhile
        (fun c => !isPySpace c && !(c = ',')) with
    | [] => none
    | run => some (key.length + 1 + run.length, [])
  else none

/-- Matcher for `message=Message\([^)]*\)` (deleted). -/
def matchMsgObj (_ : Option Char) (l : List Char) : Option (ℕ × List Char) :=
  if startsWithL "message=Message(".data l then
    if ((l.drop 16).drop ((l.drop 16).takeWhile (fun d => !(d = ')'))).length) = [] then
      none
    else some (16 + ((l.drop 16).takeWhile (fun d => !(d = ')'))).length + 1, [])
  else none

/-- One repetition `Agent_[AB]:\s*` (greedy whitespace), or nothing. -/
def agentRepLen (l : List Char) : Option ℕ :=
  if startsWithL "Agent_A:".data l || startsWithL "Agent_B:".data l then
    some (8 + ((l.drop 8).takeWhile isPySpace).length)
  else none

/-- Total length of the maximal `(Agent_[AB]:\s*)+` from here (0 if none). -/
def agentRepsAux : ℕ → List Char → ℕ
  | 0, _ => 0
  | fuel + 1, l =>
    match agentRepLen l with
    | none => 0
    | some n => n + agentRepsAux fuel (l.drop n)

/-- Matcher for `(?m)^(Agent_[AB]:\s*)+` (deleted). -/
def matchAgentLine (prev : Option Char) (l : List Char) : Option (ℕ × List Char) :=
  if prev = none || prev = some '\n' then
    match agentRepsAux l.length l with
    | 0 => none
    | n => some (n, [])
  else none

/-- Matcher for `Agent_[AB]:` anywhere (deleted). -/
def matchAgentAny (_ : Option Char) (l : List Char) : Option (ℕ × List Char) :=
  if startsWithL "Agent_A:".data l || startsWithL "Agent_B:".data l then
    some (8, [])
  else none

/-- Matcher for `\n\x7b2,\x7d` (collapsed to one newline). -/
def matchMultiNl (_ : Option Char) (l : List Char) : Option (ℕ × List Char) :=
  match l.takeWhile (fun c => c = '\n') with
  | [] => none
  | [_] => none
  | run => some (run.length, ['\n'])

/-- Matcher for `\.\x7b2,\x7d` (collapsed to exactly three dots). -/
def matchDots (_ : Option Char) (l : List Char) : Option (ℕ × List Char) :=
  match l.takeWhile (fun c => c = '.') with
  | [] => none
  | [_] => none
  | run => some (run.length, ['.', '.', '.'])

/-- Matcher for `([!?\.])\x7b2,\x7d` (collapsed to the final punctuation
character of the run, the last capture of the repeated group). -/
def matchPunctRun (_ : Option Char) (l : List Char) : Option (ℕ × List Char) :=
  match l.takeWhile isTermChar with
  | [] => none
  | [_] => none
  | run => some (run.length, [run.getLast!])

/-- Matcher for `([\.\!\?])([^\s\.,!\?])` (a space inserted between). -/
def matchPunctSpace (_ : Option Char) (l : List Char) : Option (ℕ × List Char) :=
  match l with
  | c :: d :: _ =>
    if isTermChar c && !isPySpace d && !(d = '.') && !(d = ',') && !(d = '!') && !(d = '?') then
      some (2, [c, ' ', d])
    else none
  | _ => none

/-- Matcher for `[ \t]\x7b2,\x7d` (collapsed to one space). -/
def matchMultiSpace (_ : Option Char) (l : List Char) : Option (ℕ × List Char) :=
  match l.takeWhile (fun c => c = ' ' || c = '\t') with
  | [] => none
  | [_] => none
  | run => some (run.length, [' '])

/-- Python `str.splitlines()` on the ASCII line boundaries. -/
def pySplitLines : List Char → List Char → List (List Char)
  | [], acc => if acc = [] then [] else [acc.reverse]
  | '\x0d' :: '\n' :: rest, acc => acc.reverse :: pySplitLines rest []
  | c :: rest, acc =>
    if c = '\n' || c = '\x0d' || c = '\x0b' || c = '\x0c' then
      acc.reverse :: pySplitLines rest []
    else pySplitLines rest (c :: acc)

/-- The six typographic `str.replace` calls (all single characters). -/
def replaceFancy (c : Char) : Char :=
  if c = '“' || c = '”' then '"'
  else if c = '‘' || c = '’' then '\x27'
  else if c = '—' || c = '–' then '-'
  else c

/-- The regex-substitution pipeline of `clean_content` after extraction
(the `autocorrect` block is absent-package skipped). -/
def cleanSteps (l : List Char) : List Char :=
  pstrip
    (subAll matchMultiSpace
      (subAll matchPunctSpace
        (subAll matchPunctRun
          (subAll matchDots
            ((joinSp (((pySplitLines
              (subAll matchMultiNl
                (subAll matchAgentAny
                  (subAll matchAgentLine
                    (subAll matchMsgObj
                      (subAll (matchKeyEq "total_duration".data)
                        (subAll (matchKeyEq "done".data)
                          (subAll (matchKeyEq "created_at".data)
                            (subAll (matchKeyEq "model".data) l)))))))) []).map pstrip).filter
                    (fun ln => !(ln = [])))).map replaceFancy)))))

/-- `clean_content`: extract then clean. -/
def clean_content (text : String) : String :=
  if text = "" then ""
  else ⟨cleanSteps (extract_from_text text).data⟩

/-- Whether a value can flow into the regex helpers (a dict would raise
`TypeError`). -/
def contentToText : PyVal → Option String
  | .pstr s => some s
  | .pdict _ => none

/-- The response-shape dispatch of `chat_with_ollama` (lines 114-123):
`message` dict probed for `content`/`text`/`str(msg)`, then top-level
`content`, then `str(response)`; the result is always wrapped as content
text — there is no error variant. -/
def chat_handle (response : PyVal) : Option String :=
  match response with
  | .pdict entries =>
    match pyLookup "message" entries with
    | some (.pdict mEntries) =>
      match contentToText
          (if pyTruthy (pyLookup "content" mEntries) then
            (pyLookup "content" mEntries).getD (.pstr "")
          else if pyTruthy (pyLookup "text" mEntries) then
            (pyLookup "text" mEntries).getD (.pstr "")
          else .pstr (pyStr (.pdict mEntries))) with
      | some s => some (clean_content (extract_from_text s))
      | none => none
    | some msg => some (clean_content (extract_from_text (pyStr msg)))
    | none =>
      match pyLookup "content" entries with
      | some v =>
        match contentToText v with
        | some s => some (clean_content (extract_from_text s))
        | none => none
      | none => some (clean_content (extract_from_text (pyStr response)))
  | _ => some (clean_content (extract_from_text (pyStr response)))

/-! ## Structure predicates for the dedupe analysis (C8) -/

/-- A chunk body: no sentence terminator and no newline inside. -/
def bodyOK (b : List Char) : Prop :=
  ∀ c ∈ b, isTerm4 c = false

/-- A terminator-ended chunk: a clean body followed by `.`, `!` or `?`. -/
def chunkTerm (ch : List Char) : Prop :=
  ∃ b t, ch = b ++ [t] ∧ bodyOK b ∧ isTermChar t = true

/-- Shape of a chunk list produced from newline-free text: every chunk is
non-empty, every non-final chunk is terminator-ended, and the final chunk is
terminator-ended or a bare clean body. -/
inductive GoodChunks : List (List Char) → Prop where
  | nil : GoodChunks []
  | single (c : List Char) : c ≠ [] → (chunkTerm c ∨ bodyOK c) → GoodChunks [c]
  | cons (c : List Char) (rest : List (List Char)) :
      c ≠ [] → chunkTerm c → rest ≠ [] → GoodChunks rest → GoodChunks (c :: rest)

/-- No element equals its predecessor, with `prev` the element before the
list (the accumulator state of `dedupeAcc`). -/
def NoAdjFrom : Option (List Char) → List (List Char) → Prop
  | _, [] => True
  | prev, r :: rest => prev ≠ some r ∧ NoAdjFrom (some r) rest

/-- Head condition of the amended idempotence claim: the first chunk does not
strip to a bare terminator. -/
def goodHeadCond : List (List Char) → Prop
  | [] => True
  | c :: _ => pstrip c ≠ ['.'] ∧ pstrip c ≠ ['!'] ∧ pstrip c ≠ ['?']

instance : DecidablePred goodHeadCond := by
  intro l
  cases l with
  | nil => exact inferInstanceAs (Decidable True)
  | cons c rest => exact inferInstanceAs (Decidable (_ ∧ _ ∧ _))

/-! ## Length lemmas for the text primitives -/

/-! Scenario checks of the spec, evaluated on the embedding (validated
against the Python source semantics). -/

example : trunc true none "Hello there. How are you? Fine." = "Hello there." := by decide
example : trunc false (some 5) "abcdefghij" = "abcde…" := by decide
example : trunc true (some 2) "abc, def" = "abc" := by decide
example : trunc true none ". a" = ". a…" := by decide
example : trunc true none "a.b c" = "a.b c…" := by decide
example : trunc true none ".." = ".." := by decide
example : trunc true none "x\\y" = "x…" := by decide


theorem dropWhile_length_le (p : Char → Bool) (l : List Char) :
    (l.dropWhile p).length ≤ l.length := by
  induction l with
  | nil => exact le_refl _
  | cons c rest ih =>
    rw [List.dropWhile_cons]
    split
    · exact le_trans ih (Nat.le_succ _)
    · exact le_refl _

theorem lstrip_length_le (l : List Char) : (lstrip l).length ≤ l.length :=
  dropWhile_length_le _ _

theorem rstrip_length_le (l : List Char) : (rstrip l).length ≤ l.length := by
  unfold rstrip
  rw [List.length_reverse]
  calc (l.reverse.dropWhile isPySpace).length ≤ l.reverse.length :=
        dropWhile_length_le _ _
    _ = l.length := List.length_reverse l

theorem pstrip_length_le (l : List Char) : (pstrip l).length ≤ l.length :=
  le_trans (rstrip_length_le _) (lstrip_length_le _)

theorem rstripSet_length_le (cs l : List Char) : (rstripSet cs l).length ≤ l.length := by
  unfold rstripSet
  rw [List.length_reverse]
  calc (l.reverse.dropWhile _).length ≤ l.reverse.length := dropWhile_length_le _ _
    _ = l.length := List.length_reverse l

theorem firstSentence_length_le {t g : List Char} (h : firstSentence t = some g) :
    g.length ≤ t.length := by
  unfold firstSentence at h
  cases hf : fsSearch 0 t with
  | none => rw [hf] at h; simp at h
  | some j =>
    rw [hf] at h
    have hg : t.take (j + 1) = g := Option.some.inj h
    rw [← hg, List.length_take]
    exact min_le_right _ _

theorem takeWhile_length_le (p : Char → Bool) (l : List Char) :
    (l.takeWhile p).length ≤ l.length := by
  induction l with
  | nil => exact le_refl _
  | cons c rest ih =>
    rw [List.takeWhile_cons]
    split
    · simpa using ih
    · exact Nat.zero_le _

theorem part0_length_le (t : List Char) : (part0 t).length ≤ t.length :=
  takeWhile_length_le _ _

/-- Equation lemma: the short-turn branch when a first sentence exists. -/
theorem truncShort_some (maxc : Option ℤ) {t g : List Char}
    (h : firstSentence t = some g) : truncShort maxc t = pstrip g := by
  unfold truncShort
  rw [h]

/-- Equation lemma: no first sentence, over a positive char budget. -/
theorem truncShort_cut (maxc : Option ℤ) {t : List Char}
    (h : firstSentence t = none)
    (hc : truncCut maxc (pstrip (part0 t)).length = true) :
    truncShort maxc t = pstrip (part0 t) := by
  unfold truncShort
  rw [h, if_pos hc]

/-- Equation lemma: no first sentence, fragment already terminator-ended. -/
theorem truncShort_term (maxc : Option ℤ) {t : List Char}
    (h : firstSentence t = none)
    (hc : ¬ truncCut maxc (pstrip (part0 t)).length = true)
    (he : endsWithTerm (pstrip (part0 t)) = true) :
    truncShort maxc t = pstrip (part0 t) := by
  unfold truncShort
  rw [h, if_neg hc, if_pos he]

/-- Equation lemma: no first sentence, ellipsis appended. -/
theorem truncShort_ellipsis (maxc : Option ℤ) {t : List Char}
    (h : firstSentence t = none)
    (hc : ¬ truncCut maxc (pstrip (part0 t)).length = true)
    (he : ¬ endsWithTerm (pstrip (part0 t)) = true) :
    truncShort maxc t = rstripSet [' ', ',', ';', ':'] (pstrip (part0 t)) ++ ['…'] := by
  unfold truncShort
  rw [h, if_neg hc, if_neg he]

/-! ## Theorems for claim C1 (short-turn sanitizer shape and length) -/

/-- C1 counterexample: the claim says the short-turn sanitizer never returns
a string strictly longer than its input.  On `"hi"` (no sentence terminator,
no splitter) the code appends an ellipsis and returns `"hi…"`, which is one
character longer than the input. -/
theorem C1_counterexample :
    trunc true none "hi" = "hi…" ∧
      ("hi…" : String).length > ("hi" : String).length := by
  exact ⟨by decide, by decide⟩

/-- C1 amended: with `shortTurn` set, for every input and every `maxChars`
the sanitizer returns either the empty string (empty input), the whole first
sentence of the stripped text, the stripped pre-splitter fragment verbatim,
or that fragment with trailing `" ,;:"` removed and a single `…` appended;
consequently its result exceeds the input length by at most the one appended
ellipsis character (it can be one character longer than the input, but never
more). -/
theorem C1_amended (maxc : Option ℤ) (text : String) :
    (trunc true maxc text = "" ∨
     (∃ g, firstSentence (pstrip text.data) = some g ∧
        trunc true maxc text = ⟨pstrip g⟩) ∨
     trunc true maxc text = ⟨pstrip (part0 (pstrip text.data))⟩ ∨
     trunc true maxc text =
       ⟨rstripSet [' ', ',', ';', ':'] (pstrip (part0 (pstrip text.data))) ++ ['…']⟩) ∧
    (trunc true maxc text).length ≤ text.length + 1 := by
  by_cases he : text = ""
  · subst he
    have h0 : trunc true maxc "" = "" := by simp [trunc]
    exact ⟨Or.inl h0, by rw [h0]; decide⟩
  · have hdef : trunc true maxc text = ⟨truncShort maxc (pstrip text.data)⟩ := by
      simp [trunc, he, truncL]
    have hlen : ∀ l : List Char, (⟨l⟩ : String).length = l.length := fun _ => rfl
    have htext : text.length = text.data.length := rfl
    have hfrag : (pstrip (part0 (pstrip text.data))).length ≤ text.data.length := by
      have h1 := pstrip_length_le (part0 (pstrip text.data))
      have h2 := part0_length_le (pstrip text.data)
      have h3 := pstrip_length_le text.data
      omega
    cases hfs : firstSentence (pstrip text.data) with
    | some g =>
      rw [hdef, truncShort_some maxc hfs]
      refine ⟨Or.inr (Or.inl ⟨g, rfl, rfl⟩), ?_⟩
      rw [hlen, htext]
      have h1 : (pstrip g).length ≤ g.length := pstrip_length_le g
      have h2 : g.length ≤ (pstrip text.data).length := firstSentence_length_le hfs
      have h3 : (pstrip text.data).length ≤ text.data.length := pstrip_length_le _
      omega
    | none =>
      by_cases hcut : truncCut maxc (pstrip (part0 (pstrip text.data))).length = true
      · rw [hdef, truncShort_cut maxc hfs hcut]
        refine ⟨Or.inr (Or.inr (Or.inl rfl)), ?_⟩
        rw [hlen, htext]; omega
      · by_cases hew : endsWithTerm (pstrip (part0 (pstrip text.data))) = true
        · rw [hdef, truncShort_term maxc hfs hcut hew]
          refine ⟨Or.inr (Or.inr (Or.inl rfl)), ?_⟩
          rw [hlen, htext]; omega
        · rw [hdef, truncShort_ellipsis maxc hfs hcut hew]
          refine ⟨Or.inr (Or.inr (Or.inr rfl)), ?_⟩
          rw [hlen, htext, List.length_append]
          have h4 := rstripSet_length_le [' ', ',', ';', ':']
            (pstrip (part0 (pstrip text.data)))
          simp only [List.length_cons, List.length_nil]
          omega

/-! ## Theorems for claim C2 (topic-adherence retry budget) -/

theorem startsWithL_append (n x : List Char) : startsWithL n (n ++ x) = true := by
  induction n with
  | nil => rfl
  | cons c ns ih => simpa [startsWithL] using ih

theorem hasSub_append_self (n x : List Char) : hasSub n (n ++ x) = true := by
  cases n with
  | nil =>
    cases x with
    | nil => rfl
    | cons c hs => simp [hasSub, startsWithL]
  | cons c ns =>
    show hasSub (c :: ns) (c :: (ns ++ x)) = true
    unfold hasSub
    rw [Bool.or_eq_true]
    exact Or.inl (startsWithL_append (c :: ns) x)

/-- Evaluation helper for concrete scores: reduces `topic_similarity` to a
numeral ratio once the discrete parts are computed. -/
theorem topic_similarity_eval (text topic : String) (k n : ℕ)
    (h0 : ¬ (text = "" || topic = "") = true)
    (h2 : ¬ pyWords (pyLower topic.data) = [])
    (h3 : ((pyWords (pyLower text.data)).filter
            (fun w => (pyWords (pyLower topic.data)).contains w)).length = k)
    (h4 : max 1 (pyWords (pyLower text.data)).length = n) :
    topic_similarity text topic = (k : ℚ) / (n : ℚ) := by
  rw [topic_similarity, if_neg h0, if_neg h2, h3, h4]

/-- The reply `"zzz"` scores 0 against the topic `"alpha"`. -/
theorem score_zzz_alpha : topic_similarity "zzz" "alpha" = 0 := by
  have h := topic_similarity_eval "zzz" "alpha" 0 1
    (by decide) (by decide) (by decide) (by decide)
  rw [h]; norm_num

/-- The CLI sanitizer leaves `"zzz"` unchanged with no budget. -/
theorem trunc_zzz : truncate_text false none "zzz" = "zzz" := by decide

/-- With equal scores the retry content is not kept. -/
theorem keep_zzz : keepIfImproved false none "alpha" "zzz" "zzz" = "zzz" := by
  rw [keepIfImproved, trunc_zzz]
  exact if_neg (lt_irrefl _)

/-- The pop guard always fires on the corrective message the loop just
appended, so the history is restored exactly. -/
theorem pop_corrective (msgs : List Msg) (topic : String) :
    popIfCorrective (msgs ++ [corrective topic]) = msgs := by
  have hdata : (corrective topic).content.data =
      onTopicMarker.data ++ ((": \"" : String).data ++ (topic.data ++
        ("\". Give a short, focused answer only about this topic." : String).data)) := by
    show (("IMPORTANT: Stay strictly on topic: \"" ++ topic) ++
        "\". Give a short, focused answer only about this topic.").data = _
    rw [String.data_append, String.data_append]
    have hsplit : ("IMPORTANT: Stay strictly on topic: \"" : String).data =
        onTopicMarker.data ++ (": \"" : String).data := by decide
    rw [hsplit]
    simp [List.append_assoc]
  have hguard : popGuard (msgs ++ [corrective topic]) = true := by
    unfold popGuard
    rw [List.getLast?_concat]
    show ((corrective topic).role = "user" &&
      hasSub onTopicMarker.data (corrective topic).content.data) = true
    rw [Bool.and_eq_true]
    refine ⟨decide_eq_true rfl, ?_⟩
    rw [hdata]
    exact hasSub_append_self _ _
  rw [popIfCorrective, if_pos hguard]
  exact List.dropLast_concat ..

/-- Full evaluation of the enforcement loop on the all-off-topic run. -/
theorem enforce_zzz :
    enforce false none "alpha" "zzz" "zzz" "zzz" [] = ("zzz", [], 2) := by
  have hlt : topic_similarity "zzz" "alpha" < 1/2 := by
    rw [score_zzz_alpha]; norm_num
  rw [enforce, if_pos hlt, keep_zzz, pop_corrective, enforceAfter1, if_pos hlt,
    keep_zzz, pop_corrective]

/-- C2 counterexample: the claim allows at most one corrective retry per
agent per turn, but the source loop is `for _ in range(2)` — with a reply
and retry replies that all score 0 against the topic, the loop issues two
corrective retry calls in the same turn (the second even though the first
retry reply was still off-topic). -/
theorem C2_counterexample :
    (enforce false none "alpha" "zzz" "zzz" "zzz" []).2.2 = 2 ∧
    ¬ (enforce false none "alpha" "zzz" "zzz" "zzz" []).2.2 ≤ 1 ∧
    topic_similarity (truncate_text false none "zzz") "alpha" < 1/2 := by
  rw [enforce_zzz, trunc_zzz, score_zzz_alpha]
  refine ⟨rfl, by decide, by norm_num⟩

/-- C2 amended: the enforcement loop issues at most TWO corrective retries
per agent per turn (not one): a first retry whenever the reply scores below
0.5, and a second retry exactly when the content accepted after the first
retry still scores below 0.5; no retry is issued for an on-topic reply, and
every appended synthetic corrective message is popped again, so the loop
leaves the history unchanged. -/
theorem C2_amended (shortTurn : Bool) (maxChars : Option ℤ) (topic c0 r1 r2 : String)
    (msgs : List Msg) :
    (enforce shortTurn maxChars topic c0 r1 r2 msgs).2.2 ≤ 2 ∧
    (enforce shortTurn maxChars topic c0 r1 r2 msgs).2.1 = msgs ∧
    ((enforce shortTurn maxChars topic c0 r1 r2 msgs).2.2 = 0 ↔
      ¬ topic_similarity c0 topic < 1/2) ∧
    ((enforce shortTurn maxChars topic c0 r1 r2 msgs).2.2 = 2 →
      topic_similarity (keepIfImproved shortTurn maxChars topic r1 c0) topic < 1/2) := by
  by_cases h0 : topic_similarity c0 topic < 1/2
  · rw [enforce, if_pos h0, pop_corrective]
    by_cases h1 : topic_similarity (keepIfImproved shortTurn maxChars topic r1 c0) topic < 1/2
    · rw [enforceAfter1, if_pos h1, pop_corrective]
      exact ⟨le_refl 2, rfl,
        ⟨fun h => absurd (show (2 : ℕ) = 0 from h) (by decide),
         fun hn => absurd h0 hn⟩, fun _ => h1⟩
    · rw [enforceAfter1, if_neg h1]
      exact ⟨show (1 : ℕ) ≤ 2 by decide, rfl,
        ⟨fun h => absurd (show (1 : ℕ) = 0 from h) (by decide),
         fun hn => absurd h0 hn⟩,
        fun h => absurd (show (1 : ℕ) = 2 from h) (by decide)⟩
  · rw [enforce, if_neg h0]
    exact ⟨show (0 : ℕ) ≤ 2 by decide, rfl, ⟨fun _ => h0, fun _ => rfl⟩,
      fun h => absurd (show (0 : ℕ) = 2 from h) (by decide)⟩

/-- C2 amended witness: on the all-off-topic run the hypothesis of the
second-retry clause holds concretely and the history ends unchanged. -/
theorem C2_amended_witness :
    topic_similarity (keepIfImproved false none "alpha" "zzz" "zzz") "alpha" < 1/2 ∧
    (enforce false none "alpha" "zzz" "zzz" "zzz" []).2.1 = [] :=
  ⟨(C2_amended false none "alpha" "zzz" "zzz" "zzz" []).2.2.2
      (by rw [enforce_zzz]),
   (C2_amended false none "alpha" "zzz" "zzz" "zzz" []).2.1⟩

/-! Validation of the dedupe embedding on concrete inputs (checked against
the Python regex semantics). -/

example : dedupe_sentences "a\nb. a b." = "a b. a b." := by decide
example : dedupe_sentences "a b. a b." = "a b." := by decide
example : dedupe_sentences "  . x." = ". x." := by decide
example : dedupe_sentences ". x." = "x." := by decide
example : dedupe_sentences "ab\ncd." = "ab cd." := by decide
example : dedupe_sentences "  ...  " = "." := by decide
example : dedupe_sentences "!!" = "!!" := by decide
example : dedupe_sentences "a…b. c." = "a…b. c." := by decide

/-! ## Theorems for claim C6 (inter-turn delay granularity) -/

/-- C6 counterexample: the GUI scheduler's inter-turn delay is a single
blocking `time.sleep(delay)` call of the full configured delay — for a
5-second delay it executes exactly one sleep of 5 seconds, with no flag
check during it (the flag is consulted once, before the sleep). -/
theorem C6_counterexample :
    guiInterTurnSleep false 5 = [5] ∧ (5 : ℚ) > 1 := by
  exact ⟨rfl, by norm_num⟩

theorem cliSleepAux_le (stop : ℕ → Bool) (delay : ℚ) :
    ∀ (fuel : ℕ) (slept : ℚ) (k : ℕ) (c : ℚ),
      c ∈ cliSleepAux stop delay fuel slept k → c ≤ 1/20 := by
  intro fuel
  induction fuel with
  | zero => intro slept k c hc; simp [cliSleepAux] at hc
  | succ f ih =>
    intro slept k c hc
    rw [cliSleepAux] at hc
    split_ifs at hc with h1 h2
    · simp at hc
    · rcases List.mem_cons.mp hc with h | h
      · rw [h]; exact min_le_left _ _
      · exact ih _ _ _ h
    · simp at hc

/-- Evaluation of the CLI delay loop at `delay = 0.05`. -/
theorem cliSleep_eval_small :
    cliSleepChunks (fun _ => false) (1/20) = [1/20] := by
  unfold cliSleepChunks
  have hceil : ⌈(1/20 : ℚ) * 20⌉₊ = 1 := by norm_num
  rw [hceil]
  rw [cliSleepAux]
  rw [if_pos (by norm_num), if_neg (by simp)]
  rw [cliSleepAux]
  rw [if_neg (by norm_num)]
  norm_num

/-- C6 amended: the CLI scheduler's inter-turn delay is fine-grained as the
claim describes — every executed sleep lasts at most 0.05 s and the
cancellation flag is consulted before each one (a flag set at the first
check produces no sleep at all).  The GUI scheduler's inter-turn delay,
however, checks the flag once and then performs a single blocking sleep of
the full configured delay. -/
theorem C6_amended :
    (∀ (stop : ℕ → Bool) (delay : ℚ) (c : ℚ),
        c ∈ cliSleepChunks stop delay → c ≤ 1/20) ∧
    (∀ (stop : ℕ → Bool) (delay : ℚ), stop 0 = true → cliSleepChunks stop delay = []) ∧
    (∀ delay : ℚ, guiInterTurnSleep false delay = [delay]) ∧
    (∀ delay : ℚ, guiInterTurnSleep true delay = []) := by
  refine ⟨fun stop delay c hc => cliSleepAux_le stop delay _ _ _ c hc, ?_, fun _ => rfl, fun _ => rfl⟩
  intro stop delay h
  unfold cliSleepChunks
  rw [cliSleepAux]
  by_cases h1 : (0 : ℚ) < delay
  · rw [if_pos h1, if_pos h]
  · rw [if_neg h1]

/-- C6 amended witness: a concrete CLI chunk obeys the 0.05 s bound, and a
flag already set at the first check yields no sleep. -/
theorem C6_amended_witness :
    (1/20 : ℚ) ≤ 1/20 ∧ cliSleepChunks (fun _ => true) 5 = [] :=
  ⟨C6_amended.1 (fun _ => false) (1/20) (1/20)
      (by rw [cliSleep_eval_small]; exact List.mem_singleton.mpr rfl),
   C6_amended.2.1 (fun _ => true) 5 rfl⟩

/-! ## Theorems for claim C3 (history sizes after N quiet rounds) -/

/-- In a run with the stop flag never set and no injected messages, each
completed round appends exactly two messages to each history. -/
theorem loopRun_quiet (cfg : GuiCfg) (orc : GuiOracle)
    (hstop : ∀ k, orc.stop k = false) (hinj : ∀ i, orc.inject i = []) :
    ∀ (n i k : ℕ) (mA mB : List Msg),
      ∃ extA extB : List Msg,
        (loopRun cfg orc n i k mA mB).2.1 = mA ++ extA ∧ extA.length = 2 * n ∧
        (loopRun cfg orc n i k mA mB).2.2 = mB ++ extB ∧ extB.length = 2 * n := by
  intro n
  induction n with
  | zero =>
    intro i k mA mB
    exact ⟨[], [], by simp [loopRun], rfl, by simp [loopRun], rfl⟩
  | succ m ih =>
    intro i k mA mB
    obtain ⟨eA, eB, hA, hAl, hB, hBl⟩ :=
      ih (i + 1) (k + 3)
        (mA ++ [Msg.mk "user" (sanitizeContent cfg.shortTurn cfg.maxcB (orc.respB i)),
                Msg.mk "assistant" (sanitizeContent cfg.shortTurn cfg.maxcA (orc.respA i))])
        (mB ++ [Msg.mk "assistant" (sanitizeContent cfg.shortTurn cfg.maxcB (orc.respB i)),
                Msg.mk "user" (sanitizeContent cfg.shortTurn cfg.maxcA (orc.respA i))])
    refine ⟨[Msg.mk "user" (sanitizeContent cfg.shortTurn cfg.maxcB (orc.respB i)),
             Msg.mk "assistant" (sanitizeContent cfg.shortTurn cfg.maxcA (orc.respA i))] ++ eA,
            [Msg.mk "assistant" (sanitizeContent cfg.shortTurn cfg.maxcB (orc.respB i)),
             Msg.mk "user" (sanitizeContent cfg.shortTurn cfg.maxcA (orc.respA i))] ++ eB,
            ?_, ?_, ?_, ?_⟩
    · rw [loopRun]
      simp only [hstop, hinj, drain, Bool.false_eq_true, if_false]
      rw [hA, List.append_assoc]
    · rw [List.length_append, hAl]
      simp; omega
    · rw [loopRun]
      simp only [hstop, hinj, drain, Bool.false_eq_true, if_false]
      rw [hB, List.append_assoc]
    · rw [List.length_append, hBl]
      simp; omega

/-- C3: after `N` completed rounds with no cancellation and no injected
messages, each history holds exactly `1 (system) + 1 (seed) + 2N` entries,
and the first two entries of each are the system prompt followed by the seed
initial prompt as a `user` turn. -/
theorem C3_theorem (cfg : GuiCfg) (respB respA : ℕ → String) (epB epA : ℕ → Option String) :
    (runWorkerBody cfg
        (GuiOracle.mk respB respA epB epA (fun _ => []) (fun _ => false))).2.1.length =
      2 + 2 * cfg.turns ∧
    (runWorkerBody cfg
        (GuiOracle.mk respB respA epB epA (fun _ => []) (fun _ => false))).2.2.length =
      2 + 2 * cfg.turns ∧
    (runWorkerBody cfg
        (GuiOracle.mk respB respA epB epA (fun _ => []) (fun _ => false))).2.1.take 2 =
      initMsgs cfg.sysA cfg.initialPrompt ∧
    (runWorkerBody cfg
        (GuiOracle.mk respB respA epB epA (fun _ => []) (fun _ => false))).2.2.take 2 =
      initMsgs cfg.sysB cfg.initialPrompt := by
  obtain ⟨eA, eB, hA, hAl, hB, hBl⟩ :=
    loopRun_quiet cfg (GuiOracle.mk respB respA epB epA (fun _ => []) (fun _ => false))
      (fun _ => rfl) (fun _ => rfl) cfg.turns 0 0
      (initMsgs cfg.sysA cfg.initialPrompt) (initMsgs cfg.sysB cfg.initialPrompt)
  refine ⟨?_, ?_, ?_, ?_⟩
  · show (loopRun _ _ cfg.turns 0 0 _ _).2.1.length = _
    rw [hA, List.length_append]
    simp [initMsgs, hAl]
  · show (loopRun _ _ cfg.turns 0 0 _ _).2.2.length = _
    rw [hB, List.length_append]
    simp [initMsgs, hBl]
  · show (loopRun _ _ cfg.turns 0 0 _ _).2.1.take 2 = _
    rw [hA]
    rfl
  · show (loopRun _ _ cfg.turns 0 0 _ _).2.2.take 2 = _
    rw [hB]
    rfl

/-! ## Theorems for claim C4 (one `done` event, one log close, every path) -/

theorem drain_acts_user :
    ∀ (inj : List String) (mA mB : List Msg) (a : GAction),
      a ∈ (drain inj mA mB).1 → ∃ s, a = GAction.evUser s := by
  intro inj
  induction inj with
  | nil => intro mA mB a ha; simp [drain] at ha
  | cons um rest ih =>
    intro mA mB a ha
    rw [drain] at ha
    by_cases h : pyStrip um = ""
    · rw [if_pos h] at ha
      exact ih _ _ _ ha
    · rw [if_neg h] at ha
      rcases List.mem_cons.mp ha with h1 | h1
      · exact ⟨pyStrip um, h1⟩
      · exact ih _ _ _ h1

theorem bActs_ok (cfg : GuiCfg) (orc : GuiOracle) (i : ℕ) (cb : String) :
    ∀ a ∈ bActs cfg orc i cb,
      isDoneAct a = false ∧ isCloseAct a = false ∧ isOpenAct a = false := by
  intro a ha
  rw [bActs] at ha
  rcases List.mem_cons.mp ha with h | h
  · subst h; exact ⟨rfl, rfl, rfl⟩
  · rcases List.mem_append.mp h with h1 | h1
    · split at h1
      · rcases List.mem_singleton.mp h1 with rfl
        exact ⟨rfl, rfl, rfl⟩
      · simp at h1
    · split at h1
      · rcases List.mem_singleton.mp h1 with rfl
        exact ⟨rfl, rfl, rfl⟩
      · simp at h1

theorem aActs_ok (cfg : GuiCfg) (orc : GuiOracle) (i : ℕ) (ca : String) :
    ∀ a ∈ aActs cfg orc i ca,
      isDoneAct a = false ∧ isCloseAct a = false ∧ isOpenAct a = false := by
  intro a ha
  rw [aActs] at ha
  rcases List.mem_cons.mp ha with h | h
  · subst h; exact ⟨rfl, rfl, rfl⟩
  · rcases List.mem_append.mp h with h1 | h1
    · split at h1
      · rcases List.mem_singleton.mp h1 with rfl
        exact ⟨rfl, rfl, rfl⟩
      · simp at h1
    · split at h1
      · rcases List.mem_singleton.mp h1 with rfl
        exact ⟨rfl, rfl, rfl⟩
      · simp at h1

/-- No round of the loop ever emits `done`, a log close, or a log open. -/
theorem loopRun_acts_ok (cfg : GuiCfg) (orc : GuiOracle) :
    ∀ (n i k : ℕ) (mA mB : List Msg) (a : GAction),
      a ∈ (loopRun cfg orc n i k mA mB).1 →
        isDoneAct a = false ∧ isCloseAct a = false ∧ isOpenAct a = false := by
  intro n
  induction n with
  | zero => intro i k mA mB a ha; simp [loopRun] at ha
  | succ m ih =>
    intro i k mA mB a ha
    rw [loopRun] at ha
    by_cases h0 : orc.stop k = true
    · rw [if_pos h0] at ha; simp at ha
    · rw [if_neg h0] at ha
      dsimp only at ha
      rcases List.mem_cons.mp ha with h | h
      · subst h; exact ⟨rfl, rfl, rfl⟩
      · rcases List.mem_append.mp h with h1 | h1
        · rcases List.mem_append.mp h1 with h2 | h2
          · obtain ⟨s, rfl⟩ := drain_acts_user _ _ _ _ h2
            exact ⟨rfl, rfl, rfl⟩
          · exact bActs_ok _ _ _ _ a h2
        · split at h1
          · simp at h1
          · rcases List.mem_append.mp h1 with h3 | h3
            · exact aActs_ok _ _ _ _ a h3
            · split at h3
              · simp at h3
              · exact ih _ _ _ _ a h3

/-- Counts over the whole `try` body: no `done`, no close, and exactly one
log open when (and only when) the log was acquired. -/
theorem bodyActs_counts (cfg : GuiCfg) (orc : GuiOracle) :
    (runWorkerBody cfg orc).1.countP isDoneAct = 0 ∧
    (runWorkerBody cfg orc).1.countP isCloseAct = 0 := by
  have hloop := loopRun_acts_ok cfg orc cfg.turns 0 0
    (initMsgs cfg.sysA cfg.initialPrompt) (initMsgs cfg.sysB cfg.initialPrompt)
  have hbody : (runWorkerBody cfg orc).1 =
      initActs cfg ++ (loopRun cfg orc cfg.turns 0 0
        (initMsgs cfg.sysA cfg.initialPrompt) (initMsgs cfg.sysB cfg.initialPrompt)).1 := rfl
  constructor
  · rw [hbody, List.countP_append]
    have h1 : (initActs cfg).countP isDoneAct = 0 := by
      rw [initActs]
      split <;> rfl
    have h2 : ((loopRun cfg orc cfg.turns 0 0
        (initMsgs cfg.sysA cfg.initialPrompt)
        (initMsgs cfg.sysB cfg.initialPrompt)).1).countP isDoneAct = 0 :=
      List.countP_eq_zero.mpr (fun a ha => by simp [(hloop a ha).1])
    omega
  · rw [hbody, List.countP_append]
    have h1 : (initActs cfg).countP isCloseAct = 0 := by
      rw [initActs]
      split <;> rfl
    have h2 : ((loopRun cfg orc cfg.turns 0 0
        (initMsgs cfg.sysA cfg.initialPrompt)
        (initMsgs cfg.sysB cfg.initialPrompt)).1).countP isCloseAct = 0 :=
      List.countP_eq_zero.mpr (fun a ha => by simp [(hloop a ha).2.1])
    omega

/-- Counts over the kept part of the body on any exit path. -/
theorem keptActs_counts (cfg : GuiCfg) (orc : GuiOracle) (fail : Option (ℕ × String)) :
    (keptActs cfg orc fail).countP isDoneAct = 0 ∧
    (keptActs cfg orc fail).countP isCloseAct = 0 := by
  obtain ⟨hd, hc⟩ := bodyActs_counts cfg orc
  cases fail with
  | none => exact ⟨hd, hc⟩
  | some ke =>
    obtain ⟨k, emsg⟩ := ke
    constructor
    · rw [keptActs, List.countP_append]
      have h1 : ((runWorkerBody cfg orc).1.take k).countP isDoneAct = 0 :=
        List.countP_eq_zero.mpr (fun a ha =>
          (List.countP_eq_zero.mp hd) a (List.take_subset _ _ ha))
      simp [h1]
      rfl
    · rw [keptActs, List.countP_append]
      have h1 : ((runWorkerBody cfg orc).1.take k).countP isCloseAct = 0 :=
        List.countP_eq_zero.mpr (fun a ha =>
          (List.countP_eq_zero.mp hc) a (List.take_subset _ _ ha))
      simp [h1]
      rfl

/-- C4: on every exit path — normal completion, cancellation at any flag
check, or an internal error interrupting the body at any point — the worker
trace contains exactly one `done` event, it is the final event, and the log
resource is closed exactly once when it was opened on that path and never
otherwise. -/
theorem C4_theorem (cfg : GuiCfg) (orc : GuiOracle) (fail : Option (ℕ × String)) :
    (runWorker cfg orc fail).countP isDoneAct = 1 ∧
    (runWorker cfg orc fail).getLast? = some GAction.done ∧
    (runWorker cfg orc fail).countP isCloseAct ≤ 1 ∧
    ((runWorker cfg orc fail).countP isCloseAct = 1 ↔
      GAction.openLog ∈ runWorker cfg orc fail) := by
  obtain ⟨hd, hc⟩ := keptActs_counts cfg orc fail
  by_cases hmem : GAction.openLog ∈ keptActs cfg orc fail
  · rw [runWorker, if_pos hmem]
    refine ⟨?_, ?_, ?_, ?_⟩
    · rw [List.countP_append, List.countP_append, hd]
      decide
    · exact List.getLast?_concat _
    · rw [List.countP_append, List.countP_append, hc]
      decide
    · constructor
      · intro _
        exact List.mem_append.mpr (Or.inl (List.mem_append.mpr (Or.inl hmem)))
      · intro _
        rw [List.countP_append, List.countP_append, hc]
        decide
  · rw [runWorker, if_neg hmem]
    refine ⟨?_, ?_, ?_, ?_⟩
    · rw [List.countP_append, List.countP_append, hd]
      decide
    · exact List.getLast?_concat _
    · rw [List.countP_append, List.countP_append, hc]
      decide
    · constructor
      · intro h1
        rw [List.countP_append, List.countP_append, hc] at h1
        exact absurd h1 (by decide)
      · intro h1
        rcases List.mem_append.mp h1 with h2 | h2
        · rcases List.mem_append.mp h2 with h3 | h3
          · exact absurd h3 hmem
          · simp at h3
        · simp at h2

/-! ## Theorems for claim C8 (dedupe idempotence) — strip lemmas -/

theorem isTermChar_isTerm4 {c : Char} (h : isTermChar c = true) : isTerm4 c = true := by
  unfold isTermChar at h
  unfold isTerm4
  simp only [Bool.or_eq_true, decide_eq_true_eq] at h ⊢
  tauto

theorem isTerm4_char {c : Char} (h4 : isTerm4 c = true) (hnl : c ≠ '\n') :
    isTermChar c = true := by
  unfold isTerm4 at h4
  unfold isTermChar
  simp only [Bool.or_eq_true, decide_eq_true_eq] at h4 ⊢
  rcases h4 with ((h | h) | h) | h
  · exact Or.inl (Or.inl h)
  · exact Or.inl (Or.inr h)
  · exact Or.inr h
  · exact absurd h hnl

theorem isTermChar_not_space {c : Char} (h : isTermChar c = true) :
    isPySpace c = false := by
  unfold isTermChar at h
  simp only [Bool.or_eq_true, decide_eq_true_eq] at h
  rcases h with (h | h) | h <;> subst h <;> decide

theorem dropWhile_cons_neg {p : Char → Bool} {c : Char} (l : List Char)
    (h : p c = false) : (c :: l).dropWhile p = c :: l := by
  rw [List.dropWhile_cons, h]
  simp

theorem dropWhile_head_false {p : Char → Bool} :
    ∀ (l : List Char) {c : Char} {cs : List Char},
      l.dropWhile p = c :: cs → p c = false := by
  intro l
  induction l with
  | nil => intro c cs h; simp at h
  | cons d l' ih =>
    intro c cs h
    rw [List.dropWhile_cons] at h
    split at h
    · exact ih h
    · cases h
      simp_all

theorem dropWhile_suffix_form (p : Char → Bool) :
    ∀ l : List Char, ∃ n, l.dropWhile p = l.drop n := by
  intro l
  induction l with
  | nil => exact ⟨0, rfl⟩
  | cons c l' ih =>
    by_cases h : p c = true
    · obtain ⟨n, hn⟩ := ih
      refine ⟨n + 1, ?_⟩
      rw [List.dropWhile_cons, h]
      simpa using hn
    · exact ⟨0, dropWhile_cons_neg _ (Bool.not_eq_true _ |>.mp h)⟩

theorem dropWhile_idem (p : Char → Bool) (l : List Char) :
    (l.dropWhile p).dropWhile p = l.dropWhile p := by
  cases hd : l.dropWhile p with
  | nil => rfl
  | cons c cs => exact dropWhile_cons_neg _ (dropWhile_head_false l hd)

theorem head_rstrip {y : List Char} {c : Char} {cs : List Char}
    (h : rstrip y = c :: cs) : ∃ cs2, y = c :: cs2 := by
  unfold rstrip at h
  obtain ⟨n, hn⟩ := dropWhile_suffix_form isPySpace y.reverse
  rw [hn] at h
  have hy : y = (y.reverse.drop n).reverse ++ (y.reverse.take n).reverse := by
    rw [← List.reverse_append, List.take_append_drop, List.reverse_reverse]
  rw [h] at hy
  exact ⟨cs ++ (y.reverse.take n).reverse, hy⟩

theorem lstrip_head_false {l : List Char} {c : Char} {cs : List Char}
    (h : lstrip l = c :: cs) : isPySpace c = false :=
  dropWhile_head_false l h

/-- Left-stripping an already left-and-right-stripped list is the identity. -/
theorem lstrip_pstrip (l : List Char) : lstrip (pstrip l) = pstrip l := by
  cases hx : pstrip l with
  | nil => rfl
  | cons c cs =>
    obtain ⟨cs2, h2⟩ := head_rstrip (show rstrip (lstrip l) = c :: cs from hx)
    exact dropWhile_cons_neg _ (lstrip_head_false h2)

/-- Right-stripping an already stripped list is the identity. -/
theorem rstrip_pstrip (l : List Char) : rstrip (pstrip l) = pstrip l := by
  show rstrip (rstrip (lstrip l)) = rstrip (lstrip l)
  unfold rstrip
  rw [List.reverse_reverse, dropWhile_idem]

/-- Stripping is idempotent. -/
theorem pstrip_idem (l : List Char) : pstrip (pstrip l) = pstrip l := by
  show rstrip (lstrip (pstrip l)) = pstrip l
  rw [lstrip_pstrip, rstrip_pstrip]

theorem dropWhile_append_single {p : Char → Bool} {t : Char} (h : p t = false) :
    ∀ a : List Char, (a ++ [t]).dropWhile p = a.dropWhile p ++ [t] := by
  intro a
  induction a with
  | nil => exact dropWhile_cons_neg _ h
  | cons c a' ih =>
    show ((c :: (a' ++ [t])).dropWhile p) = _
    rw [List.dropWhile_cons, List.dropWhile_cons]
    split
    · exact ih
    · rfl

theorem lstrip_append_term {t : Char} (h : isPySpace t = false) (b : List Char) :
    lstrip (b ++ [t]) = lstrip b ++ [t] :=
  dropWhile_append_single h b

theorem rstrip_append_term {t : Char} (h : isPySpace t = false) (x : List Char) :
    rstrip (x ++ [t]) = x ++ [t] := by
  unfold rstrip
  rw [List.reverse_append]
  show ((([t].reverse) ++ x.reverse).dropWhile isPySpace).reverse = _
  rw [show ([t] : List Char).reverse = [t] from rfl]
  rw [show ([t] ++ x.reverse : List Char) = t :: x.reverse from rfl]
  rw [dropWhile_cons_neg _ h]
  rw [List.reverse_cons, List.reverse_reverse]

theorem pstrip_append_term {t : Char} (h : isPySpace t = false) (b : List Char) :
    pstrip (b ++ [t]) = lstrip b ++ [t] := by
  unfold pstrip
  rw [lstrip_append_term h, rstrip_append_term h]

theorem pstrip_cons_space (r : List Char) : pstrip (' ' :: r) = pstrip r := by
  unfold pstrip lstrip
  rw [List.dropWhile_cons]
  simp [isPySpace]

theorem dropWhile_mem {p : Char → Bool} {c : Char} :
    ∀ {l : List Char}, c ∈ l.dropWhile p → c ∈ l := by
  intro l
  induction l with
  | nil => intro h; simp at h
  | cons d l' ih =>
    intro h
    rw [List.dropWhile_cons] at h
    split at h
    · exact List.mem_cons_of_mem _ (ih h)
    · exact h

theorem pstrip_mem {c : Char} {l : List Char} (h : c ∈ pstrip l) : c ∈ l := by
  unfold pstrip rstrip lstrip at h
  rw [List.mem_reverse] at h
  have h2 := dropWhile_mem h
  rw [List.mem_reverse] at h2
  exact dropWhile_mem h2

theorem bodyOK_pstrip {b : List Char} (h : bodyOK b) : bodyOK (pstrip b) :=
  fun c hc => h c (pstrip_mem hc)

theorem bodyOK_lstrip {b : List Char} (h : bodyOK b) : bodyOK (lstrip b) :=
  fun c hc => h c (dropWhile_mem hc)

theorem chunkTerm_pstrip {ch : List Char} (h : chunkTerm ch) :
    chunkTerm (pstrip ch) ∧ pstrip ch ≠ [] := by
  obtain ⟨b, t, rfl, hb, ht⟩ := h
  rw [pstrip_append_term (isTermChar_not_space ht)]
  exact ⟨⟨lstrip b, t, rfl, bodyOK_lstrip hb, ht⟩, by simp⟩

theorem chunksAcc_ne_nil : ∀ (l cur : List Char), cur ≠ [] → chunksAcc l cur ≠ [] := by
  intro l
  induction l with
  | nil =>
    intro cur h
    rw [chunksAcc, if_neg h]
    simp
  | cons c rest ih =>
    intro cur h
    rw [chunksAcc]
    by_cases h4 : isTerm4 c = true
    · rw [if_pos h4, if_neg h]
      split <;> simp
    · rw [if_neg h4]
      exact ih (c :: cur) (by simp)

theorem chunksAcc_good :
    ∀ (l cur : List Char), (∀ c ∈ l, c ≠ '\n') → bodyOK cur →
      GoodChunks (chunksAcc l cur) := by
  intro l
  induction l with
  | nil =>
    intro cur _ hcur
    rw [chunksAcc]
    by_cases hc : cur = []
    · rw [if_pos hc]
      exact GoodChunks.nil
    · rw [if_neg hc]
      refine GoodChunks.single _ (by simpa using hc) ?_
      exact Or.inr (fun c hcm => hcur c (List.mem_reverse.mp hcm))
  | cons c rest ih =>
    intro cur hnl hcur
    have hnlr : ∀ d ∈ rest, d ≠ '\n' := fun d hd => hnl d (List.mem_cons_of_mem _ hd)
    rw [chunksAcc]
    by_cases h4 : isTerm4 c = true
    · rw [if_pos h4]
      by_cases hc : cur = []
      · rw [if_pos hc]
        exact ih [] hnlr (fun d hd => by simp at hd)
      · rw [if_neg hc]
        have htc : isTermChar c = true :=
          isTerm4_char h4 (hnl c (List.mem_cons_self ..))
        rw [if_pos htc]
        have hct : chunkTerm (cur.reverse ++ [c]) :=
          ⟨cur.reverse, c, rfl, fun d hd => hcur d (List.mem_reverse.mp hd), htc⟩
        have hrec := ih [] hnlr (fun d hd => by simp at hd)
        cases htail : chunksAcc rest [] with
        | nil => exact GoodChunks.single _ (by simp) (Or.inl hct)
        | cons x xs =>
          rw [htail] at hrec
          exact GoodChunks.cons _ _ (by simp) hct (by simp) hrec
    · rw [if_neg h4]
      refine ih (c :: cur) hnlr ?_
      intro d hd
      rcases List.mem_cons.mp hd with rfl | hd2
      · exact Bool.not_eq_true _ |>.mp h4
      · exact hcur d hd2

theorem chunks_nil_all_term :
    ∀ l : List Char, chunks l = [] → ∀ c ∈ l, isTerm4 c = true := by
  intro l
  unfold chunks
  induction l with
  | nil => intro _ c hc; simp at hc
  | cons c rest ih =>
    intro h d hd
    rw [chunksAcc] at h
    by_cases h4 : isTerm4 c = true
    · rw [if_pos h4, if_pos rfl] at h
      rcases List.mem_cons.mp hd with rfl | hd2
      · exact h4
      · exact ih h d hd2
    · rw [if_neg h4] at h
      exact absurd h (chunksAcc_ne_nil rest [c] (by simp))

theorem pstrip_of_no_space :
    ∀ l : List Char, (∀ c ∈ l, isPySpace c = false) → pstrip l = l := by
  intro l hl
  have hls : lstrip l = l := by
    cases l with
    | nil => rfl
    | cons c cs => exact dropWhile_cons_neg _ (hl c (List.mem_cons_self ..))
  show rstrip (lstrip l) = l
  rw [hls]
  unfold rstrip
  cases hrev : l.reverse with
  | nil => simp_all
  | cons c cs =>
    rw [dropWhile_cons_neg _ (hl c (by rw [← List.mem_reverse, hrev]; exact List.mem_cons_self ..))]
    rw [← hrev, List.reverse_reverse]

/-- `dedupeAcc` yields stripped, non-empty, adjacently-distinct chunks of the
same good shape. -/
theorem dedupeAcc_good :
    ∀ {P : List (List Char)}, GoodChunks P → ∀ prev,
      GoodChunks (dedupeAcc P prev) ∧
      (∀ r ∈ dedupeAcc P prev, pstrip r = r ∧ r ≠ []) ∧
      NoAdjFrom prev (dedupeAcc P prev) := by
  intro P hP
  induction hP with
  | nil => exact fun prev => ⟨GoodChunks.nil, fun r hr => by simp [dedupeAcc] at hr, trivial⟩
  | single c hne hor =>
    intro prev
    rw [dedupeAcc]
    by_cases h0 : pstrip c = []
    · rw [if_pos h0]
      exact ⟨GoodChunks.nil, fun r hr => by simp [dedupeAcc] at hr, trivial⟩
    · rw [if_neg h0]
      by_cases h1 : prev = some (pstrip c)
      · rw [if_pos h1]
        exact ⟨GoodChunks.nil, fun r hr => by simp [dedupeAcc] at hr, trivial⟩
      · rw [if_neg h1]
        refine ⟨GoodChunks.single _ h0 ?_, ?_, h1, trivial⟩
        · rcases hor with hct | hbo
          · exact Or.inl (chunkTerm_pstrip hct).1
          · exact Or.inr (bodyOK_pstrip hbo)
        · intro r hr
          rw [show dedupeAcc [] (some (pstrip c)) = [] from rfl] at hr
          rcases List.mem_singleton.mp (by simpa using hr) with rfl
          exact ⟨pstrip_idem c, h0⟩
  | cons c rest hne hct hrne hrgood ih =>
    intro prev
    have hs := chunkTerm_pstrip hct
    rw [dedupeAcc, if_neg hs.2]
    by_cases h1 : prev = some (pstrip c)
    · rw [if_pos h1]
      exact ih prev
    · rw [if_neg h1]
      obtain ⟨hg, hstr, hadj⟩ := ih (some (pstrip c))
      refine ⟨?_, ?_, h1, hadj⟩
      · cases htail : dedupeAcc rest (some (pstrip c)) with
        | nil => exact GoodChunks.single _ hs.2 (Or.inl hs.1)
        | cons x xs =>
          rw [htail] at hg
          exact GoodChunks.cons _ _ hs.2 hs.1 (by simp) hg
      · intro r hr
        rcases List.mem_cons.mp hr with rfl | hr2
        · exact ⟨pstrip_idem c, hs.2⟩
        · exact hstr r hr2

theorem stripped_head_not_space {r : List Char} {c : Char} {cs : List Char}
    (hs : pstrip r = r) (he : r = c :: cs) : isPySpace c = false := by
  have hl : lstrip r = r := by
    calc lstrip r = lstrip (pstrip r) := by rw [hs]
      _ = pstrip r := lstrip_pstrip r
      _ = r := hs
  exact dropWhile_head_false r
    (by rw [show List.dropWhile isPySpace r = lstrip r from rfl, hl, he])

theorem stripped_revhead_not_space {r : List Char} {c : Char} {cs : List Char}
    (hs : pstrip r = r) (he : r.reverse = c :: cs) : isPySpace c = false := by
  have hr : rstrip r = r := by
    calc rstrip r = rstrip (pstrip r) := by rw [hs]
      _ = pstrip r := rstrip_pstrip r
      _ = r := hs
  have hdw : r.reverse.dropWhile isPySpace = r.reverse := by
    have h2 := congrArg List.reverse hr
    unfold rstrip at h2
    rw [List.reverse_reverse] at h2
    exact h2
  exact dropWhile_head_false _ (by rw [hdw, he])

/-- Walking a clean body up to its terminator emits one chunk. -/
theorem chunksAcc_body_term {t : Char} (ht : isTermChar t = true) :
    ∀ (b cur rest : List Char), bodyOK b → (cur ≠ [] ∨ b ≠ []) →
      chunksAcc (b ++ t :: rest) cur =
        ((cur.reverse ++ b) ++ [t]) :: chunksAcc rest [] := by
  intro b
  induction b with
  | nil =>
    intro cur rest _ hne
    have hcur : cur ≠ [] := hne.elim id (fun h => absurd rfl h)
    show chunksAcc (t :: rest) cur = _
    rw [chunksAcc, if_pos (isTermChar_isTerm4 ht), if_neg hcur, if_pos ht]
    simp
  | cons c b' ih =>
    intro cur rest hb hne
    have hc : isTerm4 c = false := hb c (List.mem_cons_self ..)
    show chunksAcc (c :: (b' ++ t :: rest)) cur = _
    rw [chunksAcc, if_neg (by simp [hc])]
    rw [ih (c :: cur) rest (fun d hd => hb d (List.mem_cons_of_mem _ hd)) (Or.inl (by simp))]
    rw [List.reverse_cons]
    simp [List.append_assoc]

/-- Walking a clean body to the end of the text emits one final chunk. -/
theorem chunksAcc_body_end :
    ∀ (b cur : List Char), bodyOK b → (cur ≠ [] ∨ b ≠ []) →
      chunksAcc b cur = [cur.reverse ++ b] := by
  intro b
  induction b with
  | nil =>
    intro cur _ hne
    have hcur : cur ≠ [] := hne.elim id (fun h => absurd rfl h)
    rw [chunksAcc, if_neg hcur]
    simp
  | cons c b' ih =>
    intro cur hb hne
    have hc : isTerm4 c = false := hb c (List.mem_cons_self ..)
    rw [chunksAcc, if_neg (by simp [hc])]
    rw [ih (c :: cur) (fun d hd => hb d (List.mem_cons_of_mem _ hd)) (Or.inl (by simp))]
    rw [List.reverse_cons]
    simp [List.append_assoc]

/-- Re-chunking the space-prefixed tail of a joined retained list returns the
same chunks, each with its joining space attached. -/
theorem rechunk_tail :
    ∀ {R : List (List Char)}, GoodChunks R → R ≠ [] →
      chunksAcc ((' ' : Char) :: joinSp R) [] = R.map (fun r => ' ' :: r) := by
  intro R hR
  induction hR with
  | nil => intro h; exact absurd rfl h
  | single c hne hor =>
    intro _
    show chunksAcc (' ' :: joinSp [c]) [] = [' ' :: c]
    rcases hor with ⟨b, t, rfl, hb, ht⟩ | hbo
    · show chunksAcc (' ' :: (b ++ [t])) [] = _
      have hre : (' ' :: (b ++ [t]) : List Char) = (' ' :: b) ++ t :: [] := by simp
      rw [hre]
      rw [chunksAcc_body_term ht (' ' :: b) [] []
        (fun d hd => by
          rcases List.mem_cons.mp hd with rfl | hd2
          · decide
          · exact hb d hd2)
        (Or.inr (by simp))]
      simp [chunksAcc]
    · show chunksAcc (' ' :: c) [] = _
      rw [chunksAcc_body_end (' ' :: c) []
        (fun d hd => by
          rcases List.mem_cons.mp hd with rfl | hd2
          · decide
          · exact hbo d hd2)
        (Or.inr (by simp))]
      simp
  | cons c rest hne hct hrne hg ih =>
    intro _
    obtain ⟨b, t, rfl, hb, ht⟩ := hct
    obtain ⟨r2, rest2, rfl⟩ : ∃ r2 rest2, rest = r2 :: rest2 := by
      cases rest with
      | nil => exact absurd rfl hrne
      | cons x xs => exact ⟨x, xs, rfl⟩
    show chunksAcc (' ' :: ((b ++ [t]) ++ ' ' :: joinSp (r2 :: rest2))) [] = _
    have hre : (' ' :: ((b ++ [t]) ++ ' ' :: joinSp (r2 :: rest2)) : List Char) =
        (' ' :: b) ++ t :: (' ' :: joinSp (r2 :: rest2)) := by
      simp [List.append_assoc]
    rw [hre]
    rw [chunksAcc_body_term ht (' ' :: b) [] _
      (fun d hd => by
        rcases List.mem_cons.mp hd with rfl | hd2
        · decide
        · exact hb d hd2)
      (Or.inr (by simp))]
    rw [ih (by simp)]
    simp

/-- Re-chunking the whole joined retained list: the first retained chunk does
not begin with a terminator, so the chunk structure is recovered exactly
(later chunks carry their joining space). -/
theorem rechunk_main {r1 : List Char} {rest : List (List Char)}
    (hg : GoodChunks (r1 :: rest))
    (hr1 : ∀ c cs, r1 = c :: cs → isTerm4 c = false) :
    chunks (joinSp (r1 :: rest)) = r1 :: rest.map (fun r => ' ' :: r) := by
  cases hg with
  | single _ hne hor =>
    show chunks (joinSp [r1]) = [r1]
    rcases hor with ⟨b, t, heq, hb, ht⟩ | hbo
    · have hbne : b ≠ [] := by
        rintro rfl
        have h2 := hr1 t [] (by simpa using heq)
        rw [isTermChar_isTerm4 ht] at h2
        exact absurd h2 (by simp)
      show chunks r1 = [r1]
      rw [heq]
      unfold chunks
      have hre : (b ++ [t] : List Char) = b ++ t :: [] := rfl
      rw [hre, chunksAcc_body_term ht b [] [] hb (Or.inr hbne)]
      simp [chunksAcc]
    · show chunks r1 = [r1]
      unfold chunks
      rw [chunksAcc_body_end r1 [] hbo (Or.inr hne)]
      simp
  | cons _ _ hne hct hrne hg2 =>
    obtain ⟨b, t, heq, hb, ht⟩ := hct
    have hbne : b ≠ [] := by
      rintro rfl
      have h2 := hr1 t [] (by simpa using heq)
      rw [isTermChar_isTerm4 ht] at h2
      exact absurd h2 (by simp)
    obtain ⟨r2, rest2, rfl⟩ : ∃ r2 rest2, rest = r2 :: rest2 := by
      cases rest with
      | nil => exact absurd rfl hrne
      | cons x xs => exact ⟨x, xs, rfl⟩
    show chunks (r1 ++ ' ' :: joinSp (r2 :: rest2)) = _
    rw [heq]
    unfold chunks
    have hre : ((b ++ [t]) ++ ' ' :: joinSp (r2 :: rest2) : List Char) =
        b ++ t :: (' ' :: joinSp (r2 :: rest2)) := by
      simp [List.append_assoc]
    rw [hre, chunksAcc_body_term ht b [] _ hb (Or.inr hbne)]
    rw [rechunk_tail hg2 hrne]
    simp

/-- A second dedupe pass over the recovered space-prefixed chunks retains
everything: stripping removes the joining space and no adjacent equals or
empties exist. -/
theorem dedupeAcc_map_space :
    ∀ (R : List (List Char)) (prev : Option (List Char)),
      (∀ r ∈ R, pstrip r = r ∧ r ≠ []) → NoAdjFrom prev R →
      dedupeAcc (R.map (fun r => ' ' :: r)) prev = R := by
  intro R
  induction R with
  | nil => intro prev _ _; rfl
  | cons r R' ih =>
    intro prev hstr hadj
    obtain ⟨hs, hne⟩ := hstr r (List.mem_cons_self ..)
    obtain ⟨hp, hadj2⟩ := hadj
    show dedupeAcc ((' ' :: r) :: R'.map _) prev = r :: R'
    rw [dedupeAcc, pstrip_cons_space, hs, if_neg hne, if_neg hp]
    rw [ih (some r) (fun x hx => hstr x (List.mem_cons_of_mem _ hx)) hadj2]

/-- The reversed join of stripped non-empty chunks starts with a non-space
character (the final character of the final chunk). -/
theorem joinSp_revhead :
    ∀ (R : List (List Char)), R ≠ [] → (∀ r ∈ R, pstrip r = r ∧ r ≠ []) →
      ∃ c cs, (joinSp R).reverse = c :: cs ∧ isPySpace c = false := by
  intro R
  induction R with
  | nil => intro h; exact absurd rfl h
  | cons r R' ih =>
    intro _ hstr
    obtain ⟨hs, hne⟩ := hstr r (List.mem_cons_self ..)
    cases R' with
    | nil =>
      obtain ⟨c, cs, hrev⟩ : ∃ c cs, r.reverse = c :: cs := by
        cases hx : r.reverse with
        | nil => exact absurd (by simpa using hx) hne
        | cons c cs => exact ⟨c, cs, rfl⟩
      exact ⟨c, cs, hrev, stripped_revhead_not_space hs hrev⟩
    | cons r2 R2 =>
      obtain ⟨c, cs, hrev, hcs⟩ := ih (by simp)
        (fun x hx => hstr x (List.mem_cons_of_mem _ hx))
      refine ⟨c, cs ++ ' ' :: r.reverse, ?_, hcs⟩
      show (r ++ ' ' :: joinSp (r2 :: R2)).reverse = _
      rw [List.reverse_append, List.reverse_cons, hrev]
      simp

theorem joinSp_ne_nil {r : List Char} (h : ¬ r = []) (R : List (List Char)) :
    joinSp (r :: R) ≠ [] := by
  cases R with
  | nil => exact h
  | cons x xs =>
    show r ++ ' ' :: joinSp (x :: xs) ≠ []
    simp

/-- The joined retained list is already stripped. -/
theorem joinSp_strip :
    ∀ (R : List (List Char)), (∀ r ∈ R, pstrip r = r ∧ r ≠ []) →
      pstrip (joinSp R) = joinSp R := by
  intro R hstr
  cases R with
  | nil => rfl
  | cons r R' =>
    obtain ⟨hs, hne⟩ := hstr r (List.mem_cons_self ..)
    obtain ⟨c, cs, hr⟩ : ∃ c cs, r = c :: cs := by
      cases hx : r with
      | nil => exact absurd hx hne
      | cons c cs => exact ⟨c, cs, rfl⟩
    have hcns : isPySpace c = false := stripped_head_not_space hs hr
    have hhead : ∃ y, joinSp (r :: R') = c :: y := by
      cases R' with
      | nil => exact ⟨cs, by rw [show joinSp [r] = r from rfl, hr]⟩
      | cons r2 R2 =>
        refine ⟨cs ++ ' ' :: joinSp (r2 :: R2), ?_⟩
        show r ++ ' ' :: joinSp (r2 :: R2) = _
        rw [hr]
        rfl
    obtain ⟨y, hy⟩ := hhead
    obtain ⟨d, ds, hrev, hdns⟩ := joinSp_revhead (r :: R') (by simp) hstr
    have hls : lstrip (joinSp (r :: R')) = joinSp (r :: R') := by
      rw [hy]
      exact dropWhile_cons_neg _ hcns
    show rstrip (lstrip (joinSp (r :: R'))) = _
    rw [hls]
    unfold rstrip
    rw [hrev, dropWhile_cons_neg _ hdns, ← hrev, List.reverse_reverse]

/-- C8 counterexample: `dedupe` is not idempotent.  On `"a\nb. a b."` the
first pass merges the newline-separated pieces `"a"` and `"b."` into the
single chunk `"a b."` of the output `"a b. a b."`; the second pass then sees
two adjacent identical sentences and collapses them to `"a b."`. -/
theorem C8_counterexample :
    dedupe_sentences (dedupe_sentences "a\nb. a b.") ≠
      dedupe_sentences "a\nb. a b." := by
  decide

/-- C8 amended: `dedupe` is idempotent on every input that contains no
newline and whose first sentence chunk does not strip to a bare terminator
(`"."`, `"!"` or `"?"`).  Newlines can split one sentence into two chunks
that the output re-joins (creating a new adjacent duplicate for a second
pass), and a leading whitespace-plus-terminator chunk survives one pass but
is skipped as a chunkless terminator by the next; with both ruled out a
second pass reproduces the first pass's output exactly. -/
theorem C8_amended (s : String) (hnl : ∀ c ∈ s.data, c ≠ '\n')
    (hhead : goodHeadCond (chunks s.data)) :
    dedupe_sentences (dedupe_sentences s) = dedupe_sentences s := by
  by_cases hs : s = ""
  · subst hs
    rfl
  by_cases hP : chunks s.data = []
  · have hall : ∀ c ∈ s.data, isTerm4 c = true := chunks_nil_all_term _ hP
    have hterm : ∀ c ∈ s.data, isTermChar c = true :=
      fun c hc => isTerm4_char (hall c hc) (hnl c hc)
    have hps : pstrip s.data = s.data :=
      pstrip_of_no_space _ (fun c hc => isTermChar_not_space (hterm c hc))
    have h1 : dedupe_sentences s = s := by
      unfold dedupe_sentences
      rw [if_neg hs, if_pos hP, hps]
    rw [h1]
    exact h1
  · obtain ⟨c1, P2, hPeq⟩ : ∃ c1 P2, chunks s.data = c1 :: P2 := by
      cases hcc : chunks s.data with
      | nil => exact absurd hcc hP
      | cons a b => exact ⟨a, b, rfl⟩
    have hg : GoodChunks (chunks s.data) :=
      chunksAcc_good s.data [] hnl (fun c hc => by simp at hc)
    by_cases hstrip1 : pstrip c1 = []
    · have hP2 : P2 = [] := by
        rw [hPeq] at hg
        cases hg with
        | single _ _ _ => rfl
        | cons _ _ _ hct _ _ => exact absurd hstrip1 (chunkTerm_pstrip hct).2
      have hR : dedupeAcc (chunks s.data) none = [] := by
        rw [hPeq, hP2, dedupeAcc, if_pos hstrip1]
        rfl
      have h1 : dedupe_sentences s = "" := by
        unfold dedupe_sentences
        rw [if_neg hs, if_neg hP, hR]
        rfl
      rw [h1]
      rfl
    · obtain ⟨hgR, hstrR, hadjR⟩ := dedupeAcc_good hg none
      have hRstruct : dedupeAcc (chunks s.data) none =
          pstrip c1 :: dedupeAcc P2 (some (pstrip c1)) := by
        rw [hPeq, dedupeAcc, if_neg hstrip1, if_neg (by simp)]
      have hheadOK : goodHeadCond (c1 :: P2) := hPeq ▸ hhead
      have hheadchar : ∀ c cs, pstrip c1 = c :: cs → isTerm4 c = false := by
        intro c cs hcc
        rw [hRstruct] at hgR
        have hshape : chunkTerm (pstrip c1) ∨ bodyOK (pstrip c1) := by
          generalize hX : dedupeAcc P2 (some (pstrip c1)) = X at hgR
          cases hgR with
          | single _ _ hor => exact hor
          | cons _ _ _ hct _ _ => exact Or.inl hct
        rcases hshape with ⟨b, t, hbt, hb, ht⟩ | hbo
        · cases hbq : b with
          | nil =>
            rw [hbq] at hbt
            simp only [List.nil_append] at hbt
            have h3 : pstrip c1 = [t] := hbt
            obtain ⟨h1, h2, h4⟩ := hheadOK
            unfold isTermChar at ht
            simp only [Bool.or_eq_true, decide_eq_true_eq] at ht
            rcases ht with (rfl | rfl) | rfl
            · exact absurd h3 h1
            · exact absurd h3 h2
            · exact absurd h3 h4
          | cons d b2 =>
            rw [hbq] at hbt
            rw [hbt] at hcc
            have hcd : c = d := by
              simpa using congrArg (fun l => l.head?) hcc.symm
            subst hcd
            exact hb c (by rw [hbq]; exact List.mem_cons_self ..)
        · exact hbo c (by rw [hcc]; exact List.mem_cons_self ..)
      have hjs : pstrip (joinSp (dedupeAcc (chunks s.data) none)) =
          joinSp (dedupeAcc (chunks s.data) none) :=
        joinSp_strip _ hstrR
      have h1 : dedupe_sentences s = ⟨joinSp (dedupeAcc (chunks s.data) none)⟩ := by
        unfold dedupe_sentences
        rw [if_neg hs, if_neg hP, hjs]
      have hyne : joinSp (dedupeAcc (chunks s.data) none) ≠ [] := by
        rw [hRstruct]
        exact joinSp_ne_nil hstrip1 _
      have hchunks2 : chunks (joinSp (dedupeAcc (chunks s.data) none)) =
          pstrip c1 :: (dedupeAcc P2 (some (pstrip c1))).map (fun r => ' ' :: r) := by
        rw [hRstruct]
        exact rechunk_main (hRstruct ▸ hgR) hheadchar
      have hdedup2 : dedupeAcc (chunks (joinSp (dedupeAcc (chunks s.data) none))) none =
          dedupeAcc (chunks s.data) none := by
        rw [hchunks2, dedupeAcc, pstrip_idem, if_neg hstrip1, if_neg (by simp)]
        rw [hRstruct] at hstrR hadjR
        rw [dedupeAcc_map_space _ (some (pstrip c1))
          (fun x hx => hstrR x (List.mem_cons_of_mem _ hx)) hadjR.2]
        rw [hRstruct]
      have h2 : dedupe_sentences ⟨joinSp (dedupeAcc (chunks s.data) none)⟩ =
          ⟨joinSp (dedupeAcc (chunks s.data) none)⟩ := by
        unfold dedupe_sentences
        rw [if_neg (fun hemp => hyne (congrArg String.data hemp))]
        rw [if_neg (show ¬ chunks (joinSp (dedupeAcc (chunks s.data) none)) = [] by
          rw [hchunks2]; simp)]
        rw [hdedup2, hjs]
      rw [h1, h2]

/-- C8 amended witness: a concrete newline-free input with a good first
chunk is a fixed point of a second dedupe pass. -/
theorem C8_amended_witness :
    dedupe_sentences (dedupe_sentences "a b. a b.") = dedupe_sentences "a b. a b." :=
  C8_amended "a b. a b." (by decide) (by decide)

/-! ## Theorems for claim C7 (no BadResponse: payloads become text) -/

example : chat_handle (.pstr "hello") = some "hello" := by decide
example : extract_from_text "resp content=\x27deep value\x27 tail" = "deep value" := by decide
example : clean_content "model=llama2 hi.. there" = "hi. there" := by decide

/-- C7 counterexample: a payload whose `message` object carries no `content`
string (only `text`) — so no content string exists directly or nested — is
not rejected: the send operation returns ordinary content text `"hi"`.  The
source has no `BadResponse` (or any other) error value at all. -/
theorem C7_counterexample :
    chat_handle (PyVal.pdict [("message", PyVal.pdict [("text", PyVal.pstr "hi")])]) =
      some "hi" ∧
    pyLookup "content" [("message", PyVal.pdict [("text", PyVal.pstr "hi")])] = none ∧
    pyLookup "content" [("text", PyVal.pstr "hi")] = none := by
  refine ⟨by decide, rfl, rfl⟩

/-- C7 amended: the client never returns a `BadResponse`-style error for a
payload without a content string.  A bare string payload is cleaned and
returned as content; a dict with neither `message` nor `content` key is
stringified (`str(response)`) and run through the extraction/cleanup
pipeline; and a `message` object without a truthy `content` falls back to
its `text` field as content. -/
theorem C7_amended :
    (∀ s : String, chat_handle (.pstr s) =
        some (clean_content (extract_from_text s))) ∧
    (∀ entries : List (String × PyVal),
        pyLookup "message" entries = none → pyLookup "content" entries = none →
        chat_handle (.pdict entries) =
          some (clean_content (extract_from_text (pyStr (.pdict entries))))) ∧
    (∀ (mEntries : List (String × PyVal)) (s : String),
        pyTruthy (pyLookup "content" mEntries) = false →
        pyLookup "text" mEntries = some (.pstr s) → s ≠ "" →
        chat_handle (.pdict [("message", .pdict mEntries)]) =
          some (clean_content (extract_from_text s))) := by
  refine ⟨fun s => rfl, ?_, ?_⟩
  · intro entries h1 h2
    simp only [chat_handle, h1, h2]
  · intro mEntries s h1 h2 hs
    have hmsg : pyLookup "message" [("message", PyVal.pdict mEntries)] =
        some (.pdict mEntries) := by simp [pyLookup]
    simp only [chat_handle, hmsg, h1, h2]
    rw [if_neg (by simp [h1])]
    rw [if_pos (by simp [pyTruthy, h2, hs])]
    simp [h2, contentToText]

/-- C7 amended witness: a one-key dict with neither `message` nor `content`
is stringified and returned as content. -/
theorem C7_amended_witness :
    chat_handle (.pdict [("foo", .pstr "bar")]) =
      some (clean_content (extract_from_text (pyStr (.pdict [("foo", .pstr "bar")])))) :=
  C7_amended.2.1 [("foo", .pstr "bar")] rfl rfl

/-! ## Theorems for claim C9 (topic_similarity) -/

/-- Helper: each filtered sublist is no longer than the list. -/
theorem topic_similarity_nonneg_le_one (text topic : String) :
    0 ≤ topic_similarity text topic ∧ topic_similarity text topic ≤ 1 := by
  unfold topic_similarity
  split
  · exact ⟨le_refl 0, by norm_num⟩
  · split
    · exact ⟨le_refl 0, by norm_num⟩
    · constructor
      · positivity
      · rw [div_le_one (by positivity)]
        have h1 := List.length_filter_le
          (fun w => (pyWords (pyLower (String.data topic))).contains w)
          (pyWords (pyLower (String.data text)))
        have h2 : (pyWords (pyLower (String.data text))).length ≤
            max 1 (pyWords (pyLower (String.data text))).length := le_max_right _ _
        exact_mod_cast le_trans h1 h2

/-- C9 counterexample: the claim asserts `score(topic, topic) = 1` whenever
`topic` has no repeated words.  The topic `"!!!"` is non-empty and its word
list (empty) has no duplicates, yet the code returns 0, because a topic with
no word characters yields an empty token set and the function short-circuits
to 0. -/
theorem C9_counterexample :
    topic_similarity "!!!" "!!!" = 0 ∧ ("!!!" : String) ≠ "" ∧
      (pyWords (pyLower ("!!!" : String).data)).Nodup ∧ (0 : ℚ) ≠ 1 := by
  refine ⟨by decide, by decide, by decide, by norm_num⟩

/-- C9 amended: `topic_similarity` always lies in `[0,1]`; it is 0 when either
argument is the empty string; and `score(topic, topic) = 1` whenever `topic`
contains at least one word character (rather than merely having no repeated
words as claimed — a topic with no words at all scores 0 against itself). -/
theorem C9_amended :
    (∀ text topic : String,
        0 ≤ topic_similarity text topic ∧ topic_similarity text topic ≤ 1) ∧
    (∀ topic : String, topic_similarity "" topic = 0) ∧
    (∀ text : String, topic_similarity text "" = 0) ∧
    (∀ topic : String, pyWords (pyLower topic.data) ≠ [] →
        topic_similarity topic topic = 1) := by
  refine ⟨topic_similarity_nonneg_le_one, ?_, ?_, ?_⟩
  · intro topic; simp [topic_similarity]
  · intro text; simp [topic_similarity]
  · intro topic h
    have hne : topic ≠ "" := by
      intro he; subst he; exact h (by decide)
    unfold topic_similarity
    rw [if_neg (by simp [hne]), if_neg h]
    have hfil : (pyWords (pyLower (String.data topic))).filter
        (fun w => (pyWords (pyLower (String.data topic))).contains w) =
        pyWords (pyLower (String.data topic)) := by
      rw [List.filter_eq_self]
      intro a ha
      exact List.elem_eq_true_of_mem ha
    rw [hfil]
    have hlen : 0 < (pyWords (pyLower (String.data topic))).length :=
      List.length_pos.mpr h
    have hmax : max 1 (pyWords (pyLower (String.data topic))).length =
        (pyWords (pyLower (String.data topic))).length := by omega
    rw [hmax]
    exact div_self (by exact_mod_cast hlen.ne')

/-- C9 amended witness: a concrete topic with words scores 1 against itself. -/
theorem C9_amended_witness : topic_similarity "on topic" "on topic" = 1 :=
  C9_amended.2.2.2 "on topic" (by decide)

/-! ## Theorems for claim C10 (bounded rolling brain history) -/

/-- C10: after every call to `add_to_brain` the history holds at most 200
entries; while under the bound the call is a plain append, and at (or beyond)
the bound the oldest entries are discarded so that exactly the 200 most
recently appended entries remain. -/
theorem C10_theorem (h : List BrainEntry) (now agent message role : String) :
    (add_to_brain h now agent message role).length ≤ 200 ∧
    (h.length < 200 →
      add_to_brain h now agent message role = h ++ [⟨now, agent, role, message⟩]) ∧
    (200 ≤ h.length →
      add_to_brain h now agent message role =
        h.drop (h.length + 1 - 200) ++ [⟨now, agent, role, message⟩]) := by
  unfold add_to_brain
  rw [List.length_append]
  refine ⟨?_, ?_, ?_⟩
  · rw [List.length_drop, List.length_append]
    omega
  · intro hlt
    have : h.length + 1 - 200 = 0 := by omega
    simp [this]
  · intro hge
    rw [List.drop_append_eq_append_drop]
    have : h.length + 1 - 200 - h.length = 0 := by omega
    simp [this]

/-- C10 witness: under the bound, `add_to_brain` is a plain append. -/
theorem C10_theorem_witness :
    add_to_brain [] "t0" "Ava" "hello" "user" = [⟨"t0", "Ava", "user", "hello"⟩] := by
  have := (C10_theorem [] "t0" "Ava" "hello" "user").2.1 (by decide)
  simpa using this

/-! ## Theorems for claim C5 (merge-pipeline final fallbacks) -/

/-- Helper: the Python `or` chain is non-empty whenever its right arm is. -/
theorem pyOr_ne_empty (a : String) {b : String} (hb : b ≠ "") : pyOr a b ≠ "" := by
  unfold pyOr
  split
  · exact hb
  · assumption

/-- C5 counterexample: in `real_merge_run.run` a synthesis call that succeeds
but returns empty text leaves `final` equal to the empty string even though
draft A is non-empty — the fallback there is only on the exception path. -/
theorem C5_counterexample :
    finalReal (Except.ok "") "draft a" "draft b" = "" ∧ ("draft a" : String) ≠ "" := by
  exact ⟨by decide, by decide⟩

/-- C5 amended: the live-merge pipeline (`live_merge_and_inject`) behaves as
the claim states — empty synthesis text falls back to draft A, then draft B,
then the `"[ERROR: no merged output]"` sentinel, and its final value is never
the empty string.  In `real_merge_run`, however, the fallback (whose sentinel
is `"[ERROR synth: <e>]"`) is taken only when the synthesis call raises; a
successful but empty synthesis reply leaves `final` empty. -/
theorem C5_amended :
    (∀ s dA dB : String, finalLive s dA dB ≠ "") ∧
    (∀ s dA dB : String, pyStrip s = "" →
        finalLive s dA dB = pyOr dA (pyOr dB "[ERROR: no merged output]")) ∧
    (∀ e dA dB : String,
        finalReal (.error e) dA dB = pyOr dA (pyOr dB ("[ERROR synth: " ++ e ++ "]"))) ∧
    (∀ s dA dB : String, finalReal (.ok s) dA dB = pyStrip s) := by
  refine ⟨?_, ?_, ?_, ?_⟩
  · intro s dA dB
    unfold finalLive
    split
    · exact pyOr_ne_empty _ (pyOr_ne_empty _ (by decide))
    · assumption
  · intro s dA dB hs
    simp [finalLive, hs]
  · intro e dA dB; rfl
  · intro s dA dB; rfl

/-- C5 amended witness: with whitespace-only synthesis text and an empty
draft A, the live pipeline falls back to draft B; and the live final is
non-empty there. -/
theorem C5_amended_witness :
    finalLive " " "" "draft b" = pyOr "" (pyOr "draft b" "[ERROR: no merged output]") ∧
    finalLive " " "" "draft b" ≠ "" :=
  ⟨C5_amended.2.1 " " "" "draft b" (by decide), C5_amended.1 " " "" "draft b"⟩

end TheBrain
